import Mathlib

/-!
Verification development for the Logseq MCP server's outline text model and
reconciliation engine (`src/unnamed/part_006`).  Every definition below is a
shallow embedding of a JavaScript/TypeScript function of the source; strings
are modelled as `List Char` (one element per UTF-16 unit; all inputs involved
are ASCII).  Regex operations of the source are modelled by explicit scanning
functions that mirror the regexes' matching semantics, including first-match
selection, greediness and global-replace behaviour.
-/

/-- JS `\s` restricted to the whitespace characters that can occur in the
parsed lines (the files are split on `'\n'` before any line is examined). -/
def isWs (c : Char) : Bool :=
  c = ' ' ∨ c = '\t' ∨ c = '\r'

/-- Model of `String.prototype.trim` (left part). -/
def trimL (s : List Char) : List Char := s.dropWhile isWs

/-- Model of `String.prototype.trim` (right part). -/
def trimR (s : List Char) : List Char := (s.reverse.dropWhile isWs).reverse

/-- Model of `String.prototype.trim`. -/
def trimS (s : List Char) : List Char := trimR (trimL s)

/-- Model of `String.prototype.split('\n')`; `"".split` gives `[""]`. -/
def splitOnNl : List Char → List (List Char)
  | [] => [[]]
  | c :: rest =>
    if c = '\n' then [] :: splitOnNl rest
    else
      match splitOnNl rest with
      | h :: t => (c :: h) :: t
      | [] => [[c]]

/-- Model of `Array.prototype.join('\n')` on a list of lines. -/
def joinLines : List (List Char) → List Char
  | [] => []
  | [l] => l
  | l :: rest => l ++ '\n' :: joinLines rest

/-- Model of `String.prototype.includes`: `containsB hay needle`. -/
def containsB : List Char → List Char → Bool
  | [], pat => pat.isEmpty
  | hay@(_ :: t), pat => pat.isPrefixOf hay || containsB t pat

/-- First index (if any) at which `pat` occurs in `hay`
(model of `String.prototype.indexOf`). -/
def firstSubIdx : List Char → List Char → Option Nat
  | [], pat => if pat.isEmpty then some 0 else none
  | hay@(_ :: t), pat =>
    if pat.isPrefixOf hay then some 0
    else (firstSubIdx t pat).map (· + 1)

/-- A scanner item: given a suffix of the subject, a matcher either fails or
returns a captured value together with the length of the matched span
(always at least 1 for the matchers below). -/
def MatcherM (α : Type) : Type := List Char → Option (α × Nat)

/-- Fueled first-match scan: mirrors an unanchored non-global regex match,
returning the capture and the remainder of the string after the match.
`max k 1` only guards termination; every matcher below consumes `≥ 1`. -/
def findScanRF {α : Type} (m : MatcherM α) : Nat → List Char → Option (α × List Char)
  | 0, _ => none
  | _ + 1, [] => none
  | fuel + 1, c :: s =>
    match m (c :: s) with
    | some (a, k) => some (a, (c :: s).drop (max k 1))
    | none => findScanRF m fuel s

/-- Unanchored first match with remainder after the match. -/
def findScanR {α : Type} (m : MatcherM α) (s : List Char) : Option (α × List Char) :=
  findScanRF m s.length s

/-- Fueled matchAll scan: mirrors a global regex `matchAll`, collecting all
captures, resuming after each match. -/
def listScanF {α : Type} (m : MatcherM α) : Nat → List Char → List α
  | 0, _ => []
  | _ + 1, [] => []
  | fuel + 1, c :: s =>
    match m (c :: s) with
    | some (a, k) => a :: listScanF m fuel ((c :: s).drop (max k 1))
    | none => listScanF m fuel s

/-- Model of a global `matchAll`, captures only. -/
def listScan {α : Type} (m : MatcherM α) (s : List Char) : List α :=
  listScanF m s.length s

/-- Fueled global replace-by-empty: mirrors `.replace(re, '')` with the `g`
flag, removing every matched span. -/
def removeScanF {α : Type} (m : MatcherM α) : Nat → List Char → List Char
  | 0, s => s
  | _ + 1, [] => []
  | fuel + 1, c :: s =>
    match m (c :: s) with
    | some (_, k) => removeScanF m fuel ((c :: s).drop (max k 1))
    | none => c :: removeScanF m fuel s

/-- Model of a global replace-by-empty. -/
def removeScan {α : Type} (m : MatcherM α) (s : List Char) : List Char :=
  removeScanF m s.length s

/-- Fueled non-global replace-by-empty: removes only the first match
(mirrors `.replace(re, '')` without the `g` flag). -/
def removeFirstF {α : Type} (m : MatcherM α) : Nat → List Char → List Char
  | 0, s => s
  | _ + 1, [] => []
  | fuel + 1, c :: s =>
    match m (c :: s) with
    | some (_, k) => (c :: s).drop (max k 1)
    | none => c :: removeFirstF m fuel s

/-- Model of a non-global replace-by-empty. -/
def removeFirst {α : Type} (m : MatcherM α) (s : List Char) : List Char :=
  removeFirstF m s.length s

/-- `[a-f0-9]` (the source's lowercase-hex class used for UUID fragments). -/
def isHexL (c : Char) : Bool :=
  c.isDigit ∨ ('a' ≤ c ∧ c ≤ 'f')

/-- `[a-f0-9-]`. -/
def isHexDash (c : Char) : Bool :=
  isHexL c ∨ c = '-'

/-- `[a-zA-Z_]`: the first character of an inline-property key. -/
def isKeyStart (c : Char) : Bool :=
  c.isAlpha ∨ c = '_'

/-- `[a-zA-Z0-9_-]`: the tail characters of a property key, and exactly the
character class of hash-tag names. -/
def isKeyChar (c : Char) : Bool :=
  c.isAlphanum ∨ c = '_' ∨ c = '-'

/-- Matcher for the priority-cookie consumption regex `\[#([ABC])]\s*` (the
`\s*` span is part of the match, mirroring `cleanLine = priorityMatch[2]`). -/
def cookieTakeAt : MatcherM Char
  | '[' :: s =>
    match s with
    | '#' :: p :: ']' :: rest =>
      if p = 'A' ∨ p = 'B' ∨ p = 'C' then some (p, 4 + (rest.takeWhile isWs).length)
      else none
    | _ => none
  | _ => none

/-- Matcher for the bare cookie regex `\[#[ABC]\]` used by content cleaning. -/
def cookieBareAt : MatcherM Unit
  | '[' :: s =>
    match s with
    | '#' :: p :: ']' :: _ =>
      if p = 'A' ∨ p = 'B' ∨ p = 'C' then some ((), 4) else none
    | _ => none
  | _ => none

/-- Matcher for `KW:\s*<([^>]+)>` where `KW:` is the literal keyword with its
colon (`SCHEDULED:` or `DEADLINE:`); captures the text between the brackets. -/
def markerAt (kw : List Char) : MatcherM (List Char) := fun s =>
  if kw.isPrefixOf s then
    let r := s.drop kw.length
    let w := (r.takeWhile isWs).length
    match r.drop w with
    | '<' :: t =>
      let cap := t.takeWhile (fun c => ¬ c = '>')
      if cap ≠ [] ∧ (t.drop cap.length).head? = some '>' then
        some (cap, kw.length + w + 1 + cap.length + 1)
      else none
    | _ => none
  else none

/-- Matcher for the inline-property regex `([a-zA-Z_][a-zA-Z0-9_-]*):\s*([^\s]+)`,
capturing `(key, value)`. -/
def propAt : MatcherM (List Char × List Char)
  | c :: s =>
    if isKeyStart c then
      let k := c :: s.takeWhile isKeyChar
      match s.drop (k.length - 1) with
      | ':' :: r2 =>
        let w := (r2.takeWhile isWs).length
        let v := (r2.drop w).takeWhile (fun x => ¬ isWs x)
        if v ≠ [] then some ((k, v), k.length + 1 + w + v.length) else none
      | _ => none
    else none
  | [] => none

/-- Matcher for block-reference links `\(\(([a-f0-9-]{36})\)\)`. -/
def blockRefAt : MatcherM (List Char)
  | '(' :: '(' :: rest =>
    let u := rest.take 36
    if u.length = 36 ∧ u.all isHexDash ∧ (rest.drop 36).take 2 = [')', ')'] then
      some (u, 40)
    else none
  | _ => none

/-- Matcher for page-reference links `\[\[([^\]]+)\]\]`. -/
def pageRefAt : MatcherM (List Char)
  | '[' :: '[' :: rest =>
    let t := rest.takeWhile (fun c => ¬ c = ']')
    if t ≠ [] ∧ (rest.drop t.length).take 2 = [']', ']'] then
      some (t, 4 + t.length)
    else none
  | _ => none

/-- Matcher for hash tags `#([a-zA-Z0-9_-]+)`. -/
def tagAt : MatcherM (List Char)
  | '#' :: rest =>
    let t := rest.takeWhile isKeyChar
    if t ≠ [] then some (t, 1 + t.length) else none
  | _ => none

/-- `SCHEDULED:` as a character list. -/
def schedKw : List Char := "SCHEDULED:".toList

/-- `DEADLINE:` as a character list. -/
def dlKw : List Char := "DEADLINE:".toList

/-- One parsed outline block, mirroring the source's `LogseqBlock` record
(fields that carry wall-clock timestamps are omitted: they are never read by
any operation). -/
structure BlockM where
  uuid : List Char
  content : List Char
  level : Nat
  todo : Option (List Char)
  priority : Option Char
  scheduled : Option (List Char)
  deadline : Option (List Char)
  properties : List (List Char × List Char)
  refs : List (List Char)
  deriving DecidableEq, Repr

/-- The task-keyword alternation `(TODO|DOING|DONE|LATER|NOW|WAITING|IN-PROGRESS)`
in the source's order (JS alternation prefers the leftmost alternative). -/
def kwList : List (List Char) :=
  ["TODO".toList, "DOING".toList, "DONE".toList, "LATER".toList,
   "NOW".toList, "WAITING".toList, "IN-PROGRESS".toList]

/-- One alternative of `^(KW)\s+(.*)$`: the keyword must be followed by at
least one whitespace character; the remainder starts after the greedy `\s+`. -/
def kwAfter (k : List Char) (s : List Char) : Option (List Char) :=
  if k.isPrefixOf s then
    match s.drop k.length with
    | c :: rest => if isWs c then some ((c :: rest).dropWhile isWs) else none
    | [] => none
  else none

/-- Model of the anchored task-keyword regex: first alternative that matches. -/
def kwFind (s : List Char) : Option (List Char × List Char) :=
  (kwList.map (fun k => (kwAfter k s).map (fun r => (k, r)))).foldr
    (fun o acc => o.orElse (fun _ => acc)) none

/-- Model of `^([a-f0-9-]{36})\s+(.*)$`: a full embedded identity token. -/
def fullUuidMatch (s : List Char) : Option (List Char × List Char) :=
  let u := s.take 36
  if u.length = 36 ∧ u.all isHexDash ∧ isWs ((s.drop 36).headD 'x') then
    some (u, (s.drop 36).dropWhile isWs)
  else none

/-- Model of `^([a-f0-9]{8})\s+(.*)$`: a short embedded identity token. -/
def shortUuidMatch (s : List Char) : Option (List Char × List Char) :=
  let u := s.take 8
  if u.length = 8 ∧ u.all isHexL ∧ isWs ((s.drop 8).headD 'x') then
    some (u, (s.drop 8).dropWhile isWs)
  else none

/-- Model of `cleanLine.replace(/^[-*+]\s*/, '')`. -/
def stripBullet (s : List Char) : List Char :=
  match s with
  | c :: rest => if c = '-' ∨ c = '*' ∨ c = '+' then rest.dropWhile isWs else s
  | [] => []

/-- The part of `parseBlocks` that runs after identity extraction: task
keyword, priority cookie, scheduling markers, inline properties, references,
and content cleaning, in the source's exact order. -/
structure RestParse where
  todo : Option (List Char)
  priority : Option Char
  scheduled : Option (List Char)
  deadline : Option (List Char)
  properties : List (List Char × List Char)
  refs : List (List Char)
  contentClean : List Char
  deriving DecidableEq, Repr

/-- Insert into a JS-object model: later assignment to the same key
overwrites in place, keeping first-insertion order. -/
def upsert (m : List (List Char × List Char)) (k v : List Char) :
    List (List Char × List Char) :=
  match m with
  | [] => [(k, v)]
  | (k', v') :: rest => if k' = k then (k', v) :: rest else (k', v') :: upsert rest k v

/-- Fold a capture list into the JS-object model of `properties`. -/
def propsObject (l : List (List Char × List Char)) : List (List Char × List Char) :=
  l.foldl (fun m kv => upsert m kv.1 kv.2) []

/-- Lines 138–208 of `parseBlocks` applied to the post-identity remainder. -/
def parseRest (s1 : List Char) : RestParse :=
  let (todo, s2) :=
    match kwFind s1 with
    | some (k, r) => (some k, r)
    | none => (none, s1)
  let (prio, s3) :=
    match findScanR cookieTakeAt s2 with
    | some (p, r) => (some p, r)
    | none => (none, s2)
  let scheduled := (findScanR (markerAt schedKw) s3).map (·.1)
  let deadline := (findScanR (markerAt dlKw) s3).map (·.1)
  let props := propsObject (listScan propAt s3)
  let refs := listScan blockRefAt s3 ++ listScan pageRefAt s3 ++ listScan tagAt s3
  let contentClean :=
    trimS (removeScan cookieBareAt (removeScan propAt
      (removeScan (markerAt dlKw) (removeScan (markerAt schedKw) s3))))
  ⟨todo, prio, scheduled, deadline, props, refs, contentClean⟩

/-- Model of one iteration of the `parseBlocks` loop on a single raw line.
`gen` supplies the values of successive `generateUUID()` calls and `ctr`
counts the calls made so far; the result pairs the produced block (if any)
with the updated counter. -/
def parseLineCore (gen : Nat → List Char) (ctr : Nat) (line : List Char) :
    Option BlockM × Nat :=
  let level := (line.takeWhile isWs).length / 2
  let t := trimS line
  if t = [] then (none, ctr)
  else if t.headD ' ' = '#' then (none, ctr)
  else
    let s0 := stripBullet t
    let (uuid, s1, ctr') :=
      match fullUuidMatch s0 with
      | some (u, rest) => (u, rest, ctr + 1)
      | none =>
        match shortUuidMatch s0 with
        | some (u8, rest) => (u8 ++ (gen (ctr + 1)).drop 8, rest, ctr + 2)
        | none => (gen ctr, s0, ctr + 1)
    let rp := parseRest s1
    if rp.contentClean = [] then (none, ctr')
    else
      (some ⟨uuid, rp.contentClean, level, rp.todo, rp.priority,
             rp.scheduled, rp.deadline, rp.properties, rp.refs⟩, ctr')

/-- The produced block of a single line (counter discarded). -/
def parseLineO (gen : Nat → List Char) (ctr : Nat) (line : List Char) :
    Option BlockM :=
  (parseLineCore gen ctr line).1

/-- Model of `parseBlocks` on full file text: split on newlines, parse each
line, thread the `generateUUID()` counter. -/
def parseBlocksGo (gen : Nat → List Char) : Nat → List (List Char) →
    List BlockM × Nat
  | ctr, [] => ([], ctr)
  | ctr, l :: rest =>
    match parseLineCore gen ctr l with
    | (some b, ctr') =>
      let (bs, ctr'') := parseBlocksGo gen ctr' rest
      (b :: bs, ctr'')
    | (none, ctr') =>
      let (bs, ctr'') := parseBlocksGo gen ctr' rest
      (bs, ctr'')

/-- Model of `parseBlocks(content)`. -/
def parseBlocksM (gen : Nat → List Char) (ctr : Nat) (content : List Char) :
    List BlockM × Nat :=
  parseBlocksGo gen ctr (splitOnNl content)

/-- The serialized task-keyword slot (`insert_block`: `if (todo) blockContent += todo + ' '`). -/
def todoPart : Option (List Char) → List Char
  | some k => k ++ [' ']
  | none => []

/-- The serialized priority-cookie slot (`if (priority) blockContent += '[#P] '`). -/
def prioPart : Option Char → List Char
  | some p => '[' :: '#' :: p :: ']' :: [' ']
  | none => []

/-- The serialized scheduling-marker slot of the persisted layout. -/
def markerPart (kw : List Char) : Option (List Char) → List Char
  | some s => ' ' :: kw ++ ' ' :: '<' :: s ++ ['>']
  | none => []

/-- The serialized inline-property tokens of the persisted layout. -/
def propsPart (l : List (List Char × List Char)) : List Char :=
  l.foldl (fun acc kv => acc ++ ' ' :: kv.1 ++ ':' :: ' ' :: kv.2) []

/-- Serialization of a block's extracted fields back into one persisted line,
in the layout used by `insert_block` (bullet + short identity + optional task
keyword + optional priority cookie + content) extended with the optional
scheduling and inline-property tokens of the persisted layout. -/
def serializeBlock (b : BlockM) : List Char :=
  '-' :: ' ' :: b.uuid.take 8 ++ ' ' ::
  (todoPart b.todo ++ prioPart b.priority ++ b.content ++
   markerPart schedKw b.scheduled ++ markerPart dlKw b.deadline ++
   propsPart b.properties)

/-- One stored note file: directory path, base name (without extension) and
full text content.  `path.basename(filePath, path.extname(filePath))` of the
source equals `name` because every name used here is dot-free and
slash-free. -/
structure GraphFile where
  dir : List Char
  name : List Char
  content : List Char
  deriving DecidableEq, Repr

/-- The file's full path as the source builds it (`dir/name.md`). -/
def filePathOf (f : GraphFile) : List Char :=
  f.dir ++ '/' :: f.name ++ ".md".toList

/-- Front-matter split of `readPageFile`: when the text starts with `---`,
properties come from the lines up to the next `---`; the remainder is the
markdown body. -/
def frontMatterSplit (content : List Char) :
    List (List Char × List Char) × List Char :=
  if "---".toList.isPrefixOf content then
    match firstSubIdx (content.drop 3) "---".toList with
    | some i =>
      let fm := trimS ((content.drop 3).take i)
      let body := content.drop (3 + i + 3)
      let props := (splitOnNl fm).foldl
        (fun m line =>
          match firstSubIdx line [':'] with
          | some ci =>
            if 0 < ci then upsert m (trimS (line.take ci)) (trimS (line.drop (ci + 1)))
            else m
          | none => m) []
      (props, body)
    | none => ([], content)
  else ([], content)

/-- Model of the journal-name regex `^(\d{4})_(\d{2})_(\d{2})$`. -/
def isJournalName (n : List Char) : Bool :=
  n.length = 10 && (n.getD 0 ' ').isDigit && (n.getD 1 ' ').isDigit &&
  (n.getD 2 ' ').isDigit && (n.getD 3 ' ').isDigit && n.getD 4 ' ' = '_' &&
  (n.getD 5 ' ').isDigit && (n.getD 6 ' ').isDigit && n.getD 7 ' ' = '_' &&
  (n.getD 8 ' ').isDigit && (n.getD 9 ' ').isDigit

/-- Numeric value `parseInt(yyyy + mm + dd)` of a matching journal name. -/
def journalDayVal (n : List Char) : Nat :=
  ((n.take 4) ++ (n.drop 5).take 2 ++ (n.drop 8).take 2).foldl
    (fun acc c => acc * 10 + (c.toNat - 48)) 0

/-- `journalDay` as computed by `readPageFile`: only underscore-separated
date names produce a value, and only for files under the journals folder. -/
def journalDayOf (isJournal : Bool) (name : List Char) : Option Nat :=
  if isJournal ∧ isJournalName name then some (journalDayVal name) else none

/-- One parsed page, mirroring the fields of `LogseqPage` that the verified
operations read. -/
structure PageM where
  name : List Char
  title : List Char
  blocks : List BlockM
  isJournal : Bool
  journalDay : Option Nat
  deriving DecidableEq, Repr

/-- Model of `readPageFile` (the fields used by search and the mutation
operations; the page-level `uuid`, timestamps, aliases and namespace are
never read by them). -/
def readPage (gen : Nat → List Char) (ctr : Nat) (f : GraphFile) : PageM × Nat :=
  let (props, body) := frontMatterSplit f.content
  let (blocks, ctr') := parseBlocksM gen ctr body
  let title :=
    match props.lookup "title".toList with
    | some t => if t = [] then f.name else t
    | none => f.name
  let isJournal := containsB (filePathOf f) "/journals/".toList
  ⟨⟨f.name, title, blocks, isJournal, journalDayOf isJournal f.name⟩, ctr'⟩

/-- Model of `getAllPages` on an abstract file collection: every file is
parsed in order, threading the `generateUUID()` counter. -/
def allPages (gen : Nat → List Char) : Nat → List GraphFile → List PageM × Nat
  | ctr, [] => ([], ctr)
  | ctr, f :: fs =>
    let (p, ctr') := readPage gen ctr f
    let (ps, ctr'') := allPages gen ctr' fs
    (p :: ps, ctr'')

/-- Index of the first list element satisfying `p` (the JS `for` loops with
`break` in `update_block` and `delete_block`). -/
def findIdxB {α : Type} (p : α → Bool) : List α → Option Nat
  | [] => none
  | l :: ls => if p l then some 0 else (findIdxB p ls).map (· + 1)

/-- Result of the `update_block` operation. -/
inductive UpdResult where
  | notFound : UpdResult
  | success : Nat → Nat → UpdResult
  deriving DecidableEq, Repr

/-- The UUID-inclusion test of `update_block` (line 1341): full text, or the
first 8 characters when the argument is at least 8 long, or the argument
itself when it is at most 8 long. -/
def includesUuid (line u : List Char) : Bool :=
  containsB line u ||
  (decide (8 ≤ u.length) && containsB line (u.take 8)) ||
  (decide (u.length ≤ 8) && containsB line u)

/-- Model of `line.match(/^(\s*- )(.*)$/)`: returns the captured prefix
(indentation, dash, single space) when the line is a dash-bulleted line. -/
def dashMatch (line : List Char) : Option (List Char) :=
  let w := line.takeWhile isWs
  match line.drop w.length with
  | '-' :: ' ' :: _ => some (w ++ ['-', ' '])
  | _ => none

/-- `update_block` on one file: first line that contains the UUID and is a
dash-bulleted line is rewritten to `prefix ++ content`. -/
def updFile (u c : List Char) (f : GraphFile) : Option (Nat × GraphFile) :=
  let lines := splitOnNl f.content
  match findIdxB (fun l => includesUuid l u && (dashMatch l).isSome) lines with
  | some i =>
    let l := lines.getD i []
    let nl := (dashMatch l).getD [] ++ c
    some (i, ⟨f.dir, f.name, joinLines (lines.set i nl)⟩)
  | none => none

/-- Scan the collection in order for the first file `update_block` edits. -/
def updAux (u c : List Char) : List GraphFile → Option (Nat × Nat × GraphFile)
  | [] => none
  | f :: fs =>
    match updFile u c f with
    | some (i, nf) => some (0, i, nf)
    | none => (updAux u c fs).map (fun t => (t.1 + 1, t.2.1, t.2.2))

/-- Model of the `update_block` tool (part_006 lines 1330–1372): the state is
the file collection; the returned collection is the post-write collection. -/
def updateBlock (files : List GraphFile) (u c : List Char) :
    UpdResult × List GraphFile :=
  match updAux u c files with
  | none => (.notFound, files)
  | some (fi, li, nf) => (.success fi li, files.set fi nf)

/-- Result of the `delete_block` operation.  `success` records the page
index, deleted line index, selecting strategy index, the target's short UUID
and content, the deleted line, and the post-write verification flag. -/
inductive DelResult where
  | notFound : DelResult
  | searchFailed : DelResult
  | success : Nat → Nat → Nat → List Char → List Char → List Char → Bool → DelResult
  deriving DecidableEq, Repr

/-- The identity test of `delete_block`'s block search (lines 1399–1401). -/
def uuidMatches (blockUuid u : List Char) : Bool :=
  blockUuid = u ∨ blockUuid.take 8 = u ∨ u.isPrefixOf blockUuid

/-- First page (by index) containing a block whose identity matches. -/
def findTarget (u : List Char) : Nat → List PageM → Option (Nat × BlockM)
  | _, [] => none
  | i, p :: ps =>
    match p.blocks.find? (fun b => uuidMatches b.uuid u) with
    | some b => some (i, b)
    | none => findTarget u (i + 1) ps

/-- Does the line look like a bulleted line (strategies 2, 3 and 5)? -/
def bulletish (line : List Char) : Bool :=
  containsB line "- ".toList || containsB line "* ".toList || containsB line "+ ".toList

/-- The five line-matching strategies of `delete_block` (lines 1430–1475),
by index in their order of reliability. -/
def stratTest (k : Nat) (short bContent line : List Char) : Bool :=
  match k with
  | 0 =>
    ('-' :: ' ' :: short ++ [' ']).isPrefixOf (trimS line) ||
    ('*' :: ' ' :: short ++ [' ']).isPrefixOf (trimS line) ||
    ('+' :: ' ' :: short ++ [' ']).isPrefixOf (trimS line)
  | 1 => containsB line short && bulletish line
  | 2 => containsB line bContent && bulletish line
  | 3 =>
    let cleaned := trimS (removeFirst cookieTakeAt
      ((fun s => match kwFind s with | some (_, r) => r | none => s)
        ((fun s => match shortUuidMatch s with | some (_, r) => r | none => s)
          (stripBullet (trimS line)))))
    cleaned = bContent || containsB cleaned bContent
  | 4 =>
    bulletish line &&
    (let cs := bContent.take 15
     decide (3 < cs.length) && containsB line cs)
  | _ => false

/-- Try each strategy in order; within a strategy, take the first matching
line (mirrors the nested loops at lines 1478–1487). -/
def selectLine (short bContent : List Char) (lines : List (List Char)) :
    Option (Nat × Nat) :=
  match findIdxB (stratTest 0 short bContent) lines with
  | some i => some (0, i)
  | none =>
  match findIdxB (stratTest 1 short bContent) lines with
  | some i => some (1, i)
  | none =>
  match findIdxB (stratTest 2 short bContent) lines with
  | some i => some (2, i)
  | none =>
  match findIdxB (stratTest 3 short bContent) lines with
  | some i => some (3, i)
  | none =>
  match findIdxB (stratTest 4 short bContent) lines with
  | some i => some (4, i)
  | none => none

/-- Model of the `delete_block` tool (part_006 lines 1389–1551): locate the
block by identity in the freshly parsed collection, select the physical line
with the tiered strategies, splice it out, write the file back and verify. -/
def deleteBlock (gen : Nat → List Char) (files : List GraphFile) (u : List Char) :
    DelResult × List GraphFile :=
  let pages := (allPages gen 0 files).1
  match findTarget u 0 pages with
  | none => (.notFound, files)
  | some (pi, b) =>
    let f := files.getD pi ⟨[], [], []⟩
    let lines := splitOnNl f.content
    let short := b.uuid.take 8
    match selectLine short b.content lines with
    | none => (.searchFailed, files)
    | some (k, i) =>
      let origLine := lines.getD i []
      let newContent := joinLines (lines.eraseIdx i)
      let files' := files.set pi ⟨f.dir, f.name, newContent⟩
      let origGone := ! containsB newContent (trimS origLine)
      let uuidGone := ! containsB newContent short
      let contentGone := ! containsB newContent b.content
      (.success pi i k short b.content origLine (origGone && (uuidGone || contentGone)),
       files')

/-- A search hit, tagged page or block as in the source's `results` array. -/
inductive SearchHit where
  | pageHit : List Char → SearchHit
  | blockHit : List Char → List Char → SearchHit
  deriving DecidableEq, Repr

/-- Lower-casing for the regex's `i` flag. -/
def lowerStr (s : List Char) : List Char := s.map Char.toLower

/-- Model of `searchRegex.test(s)` for the escaped-literal pattern compiled
with the `g` and `i` flags: matching starts at the regex's persistent
`lastIndex`; a successful test advances `lastIndex` past the match, a failed
test resets it to 0.  Returns (hit, new lastIndex). -/
def regexTestG (q s : List Char) (lastIndex : Nat) : Bool × Nat :=
  match firstSubIdx ((lowerStr s).drop lastIndex) (lowerStr q) with
  | some j => (true, lastIndex + j + q.length)
  | none => (false, 0)

/-- The per-page body of the search loop, threading the stateful regex. -/
def searchPage (q : List Char) (st : Nat) (p : PageM) : List SearchHit × Nat :=
  let (nameHit, st1) := regexTestG q p.name st
  let (pHit, st2) :=
    if nameHit then (true, st1)
    else if p.title ≠ [] then regexTestG q p.title st1
    else (false, st1)
  let pageHits := if pHit then [SearchHit.pageHit p.name] else []
  let (blockHits, st3) := p.blocks.foldl
    (fun acc b =>
      let (hit, st') := regexTestG q b.content acc.2
      (acc.1 ++ (if hit then [SearchHit.blockHit p.name b.content] else []), st'))
    (([] : List SearchHit), st2)
  (pageHits ++ blockHits, st3)

/-- Model of the `search` tool (part_006 lines 473–505): one regex object is
created and its `lastIndex` persists across every `.test` call of the
request. -/
def searchModel (gen : Nat → List Char) (files : List GraphFile) (q : List Char) :
    List SearchHit :=
  (((allPages gen 0 files).1).foldl
    (fun acc p =>
      let (hits, st') := searchPage q acc.2 p
      (acc.1 ++ hits, st'))
    (([] : List SearchHit), 0)).1

/-- Is a hit a block hit? -/
def isBlockHit : SearchHit → Bool
  | .blockHit _ _ => true
  | .pageHit _ => false

/-- Decimal digit character (only called with arguments below 10). -/
def digitChar (n : Nat) : Char :=
  match n with
  | 0 => '0' | 1 => '1' | 2 => '2' | 3 => '3' | 4 => '4'
  | 5 => '5' | 6 => '6' | 7 => '7' | 8 => '8' | _ => '9'

/-- Decimal digits of a natural number (fueled; `natChars n` uses fuel `n`). -/
def natCharsF : Nat → Nat → List Char
  | 0, n => [digitChar n]
  | fuel + 1, n =>
    if n < 10 then [digitChar n]
    else natCharsF fuel (n / 10) ++ [digitChar (n % 10)]

/-- Decimal representation of a natural number. -/
def natChars (n : Nat) : List Char := natCharsF n n

/-- Left-pad with `'0'` to width `w` (`toISOString` zero-pads its fields). -/
def padZero (w : Nat) (s : List Char) : List Char :=
  List.replicate (w - s.length) '0' ++ s

/-- The date part of `Date.prototype.toISOString`: hyphen-separated
`YYYY-MM-DD`. -/
def isoDateStr (y m d : Nat) : List Char :=
  padZero 4 (natChars y) ++ '-' :: padZero 2 (natChars m) ++ '-' :: padZero 2 (natChars d)

/-- Model of `create_journal_page` (part_006 lines 1018–1058) for a resolved
target date: the created file under `basePath/journals`, named by the
hyphen-separated ISO date string.  `locDate` stands for the
locale-formatted `targetDate.toLocaleDateString()` interpolated into the
body (environment-dependent; no verified operation reads it). -/
def createJournalPage (basePath : List Char) (y m d : Nat)
    (locDate : List Char) : GraphFile :=
  let dateStr := isoDateStr y m d
  ⟨basePath ++ "/journals".toList, dateStr,
   '#' :: ' ' :: dateStr ++ "\n\n- Journal entry for ".toList ++ locDate ++
     "\n- TODO Add your thoughts for today\n".toList⟩

/-- The composed source line of the round-trip family: bullet + optional task
keyword + optional priority cookie + content. -/
def mkSrcLine (kw : Option (List Char)) (pr : Option Char) (c : List Char) :
    List Char :=
  '-' :: ' ' :: (todoPart kw ++ prioPart pr ++ c)

/-- Content free of every metadata syntax the parser extracts or removes:
trimmed and non-empty, no embedded identity token at the front, no leading
task keyword, no priority cookie anywhere, no scheduling marker, and no
inline-property token. -/
def PlainContent (c : List Char) : Prop :=
  c ≠ [] ∧
  c.dropWhile isWs = c ∧
  c.reverse.dropWhile isWs = c.reverse ∧
  fullUuidMatch c = none ∧
  shortUuidMatch c = none ∧
  kwFind c = none ∧
  findScanR cookieTakeAt c = none ∧
  findScanR cookieBareAt c = none ∧
  findScanR (markerAt schedKw) c = none ∧
  findScanR (markerAt dlKw) c = none ∧
  findScanR propAt c = none

instance : DecidablePred PlainContent := fun c => by
  unfold PlainContent; infer_instance

/-- A fixed 36-character generator output (stands in for one `uuidv4()`
value; only its hex-ness and length matter to any theorem). -/
def genA : Nat → List Char := fun _ => "0123456789abcdef0123456789abcdef0123".toList

/-- A generator of pairwise-distinct 36-character outputs. -/
def genB : Nat → List Char := fun n =>
  natChars n ++ List.replicate (36 - (natChars n).length) 'a'

/-- Example collection: one page file holding two blocks with identical
content (spec example scenario 4). -/
def filesReviewPR : List GraphFile :=
  [⟨"g/pages".toList, "tasks".toList, "- Review PR\n- Review PR".toList⟩]

/-- Example collection: one page titled `Urgent Matters` with one block
containing `this is URGENT` (spec example scenario 5). -/
def filesUrgent : List GraphFile :=
  [⟨"g/pages".toList, "Urgent Matters".toList, "- this is URGENT".toList⟩]

/-- Example collection: one page with two consecutive blocks both containing
the query word `urgent`. -/
def filesTwoUrgent : List GraphFile :=
  [⟨"g/pages".toList, "notes".toList, "- urgent task one\n- urgent task two".toList⟩]

/-! ### General lemmas about the string primitives -/

theorem head_false_of_dropWhile_self {p : Char → Bool} {c : Char} {t : List Char}
    (h : (c :: t).dropWhile p = c :: t) : p c = false := by
  have := (List.dropWhile_eq_self_iff).mp h
  simpa using this (by simp)

theorem takeWhile_nil_of_dropWhile_self {p : Char → Bool} {l : List Char}
    (h : l.dropWhile p = l) : l.takeWhile p = [] := by
  cases l with
  | nil => rfl
  | cons c t => rw [List.takeWhile_cons, head_false_of_dropWhile_self h]; simp

theorem dropWhile_eq_self_of_all {p : Char → Bool} {l : List Char}
    (h : ∀ x ∈ l, p x = false) : l.dropWhile p = l := by
  cases l with
  | nil => rfl
  | cons c t => rw [List.dropWhile_cons, h c (by simp)]; simp

theorem takeWhile_eq_self_of_all {p : Char → Bool} {l : List Char}
    (h : ∀ x ∈ l, p x = true) : l.takeWhile p = l := by
  induction l with
  | nil => rfl
  | cons c t ih =>
    rw [List.takeWhile_cons, h c (by simp)]
    simp only [if_true]
    rw [ih (fun x hx => h x (by simp [hx]))]

theorem dropWhile_append_left {p : Char → Bool} {l m : List Char}
    (hl : l ≠ []) (h : l.dropWhile p = l) : (l ++ m).dropWhile p = l ++ m := by
  cases l with
  | nil => exact absurd rfl hl
  | cons c t =>
    rw [List.cons_append, List.dropWhile_cons, head_false_of_dropWhile_self h]
    simp

theorem trimR_append {x c : List Char} (hc : c ≠ [])
    (h : c.reverse.dropWhile isWs = c.reverse) : trimR (x ++ c) = x ++ c := by
  unfold trimR
  rw [List.reverse_append,
    dropWhile_append_left (by simpa using hc) h, ← List.reverse_append]
  simp

theorem trimR_eq_self {c : List Char} (h : c.reverse.dropWhile isWs = c.reverse) :
    trimR c = c := by
  unfold trimR; rw [h]; simp

theorem trimS_eq_self {c : List Char} (hL : c.dropWhile isWs = c)
    (hR : c.reverse.dropWhile isWs = c.reverse) : trimS c = c := by
  unfold trimS trimL; rw [hL, trimR_eq_self hR]

theorem isPrefixOf_append_self (p b : List Char) : p.isPrefixOf (p ++ b) = true :=
  List.isPrefixOf_iff_prefix.mpr (List.prefix_append p b)

theorem containsB_suffix : ∀ (a p : List Char), containsB (a ++ p) p = true
  | [], [] => rfl
  | [], c :: t => by
    simp only [List.nil_append, containsB, Bool.or_eq_true]
    exact Or.inl (by simp [isPrefixOf_append_self (c :: t) []])
  | a :: as, p => by
    simp only [List.cons_append, containsB, Bool.or_eq_true]
    exact Or.inr (containsB_suffix as p)

theorem containsB_mid : ∀ (a p b : List Char), containsB (a ++ (p ++ b)) p = true
  | [], [], b => by cases b <;> simp [containsB]
  | [], c :: t, b => by
    simp only [List.nil_append, containsB, Bool.or_eq_true]
    exact Or.inl (isPrefixOf_append_self (c :: t) b)
  | a :: as, p, b => by
    simp only [List.cons_append, containsB, Bool.or_eq_true]
    exact Or.inr (containsB_mid as p b)

theorem mem_of_isPrefixOf {p s : List Char} {x : Char}
    (h : p.isPrefixOf s = true) (hx : x ∈ p) : x ∈ s :=
  (List.isPrefixOf_iff_prefix.mp h).subset hx

/-! ### Generic lemmas about the scanners -/

theorem findScanRF_none_of_mem {α : Type} {m : MatcherM α} {Q : Char → Prop}
    (hm : ∀ t : List Char, m t ≠ none → ∃ x ∈ t, Q x) :
    ∀ (fuel : Nat) (s : List Char), (∀ x ∈ s, ¬ Q x) → findScanRF m fuel s = none := by
  intro fuel
  induction fuel with
  | zero => intro s _; rfl
  | succ f ih =>
    intro s hs
    cases s with
    | nil => rfl
    | cons c t =>
      have hmc : m (c :: t) = none := by
        by_contra hne
        obtain ⟨x, hx, hQ⟩ := hm _ hne
        exact hs x hx hQ
      simp only [findScanRF, hmc]
      exact ih t (fun x hx => hs x (by simp [hx]))

theorem findScanR_none_of_mem {α : Type} {m : MatcherM α} {Q : Char → Prop}
    (hm : ∀ t : List Char, m t ≠ none → ∃ x ∈ t, Q x)
    {s : List Char} (hs : ∀ x ∈ s, ¬ Q x) : findScanR m s = none :=
  findScanRF_none_of_mem hm s.length s hs

theorem removeScanF_eq_self {α : Type} {m : MatcherM α} :
    ∀ (fuel : Nat) (s : List Char), findScanRF m fuel s = none →
      removeScanF m fuel s = s := by
  intro fuel
  induction fuel with
  | zero => intro s _; rfl
  | succ f ih =>
    intro s h
    cases s with
    | nil => rfl
    | cons c t =>
      cases hmc : m (c :: t) with
      | some v =>
        exfalso
        simp [findScanRF, hmc] at h
      | none =>
        simp only [findScanRF, hmc] at h
        simp only [removeScanF, hmc]
        rw [ih t h]

theorem removeScan_eq_self {α : Type} {m : MatcherM α} {s : List Char}
    (h : findScanR m s = none) : removeScan m s = s :=
  removeScanF_eq_self s.length s h

theorem listScanF_nil {α : Type} {m : MatcherM α} :
    ∀ (fuel : Nat) (s : List Char), findScanRF m fuel s = none →
      listScanF m fuel s = [] := by
  intro fuel
  induction fuel with
  | zero => intro s _; rfl
  | succ f ih =>
    intro s h
    cases s with
    | nil => rfl
    | cons c t =>
      cases hmc : m (c :: t) with
      | some v =>
        exfalso
        simp [findScanRF, hmc] at h
      | none =>
        simp only [findScanRF, hmc] at h
        simp only [listScanF, hmc]
        exact ih t h

theorem listScan_nil {α : Type} {m : MatcherM α} {s : List Char}
    (h : findScanR m s = none) : listScan m s = [] :=
  listScanF_nil s.length s h

theorem findScanRF_append {α : Type} {m : MatcherM α} {Q : Char → Prop}
    (hm : ∀ (c : Char) (s : List Char), ¬ Q c → m (c :: s) = none) :
    ∀ (pre : List Char), (∀ x ∈ pre, ¬ Q x) → ∀ (fuel : Nat) (rest : List Char),
      findScanRF m (pre.length + fuel) (pre ++ rest) = findScanRF m fuel rest := by
  intro pre
  induction pre with
  | nil => intro _ fuel rest; simp
  | cons c t ih =>
    intro hp fuel rest
    have hc : m (c :: (t ++ rest)) = none := hm _ _ (hp c (by simp))
    show findScanRF m (t.length + 1 + fuel) (c :: (t ++ rest)) = _
    have : t.length + 1 + fuel = (t.length + fuel) + 1 := by omega
    rw [this]
    simp only [findScanRF, hc]
    exact ih (fun x hx => hp x (by simp [hx])) fuel rest

theorem findScanR_append {α : Type} {m : MatcherM α} {Q : Char → Prop}
    (hm : ∀ (c : Char) (s : List Char), ¬ Q c → m (c :: s) = none)
    {pre : List Char} (hp : ∀ x ∈ pre, ¬ Q x) (rest : List Char) :
    findScanR m (pre ++ rest) = findScanR m rest := by
  unfold findScanR
  rw [List.length_append]
  exact findScanRF_append hm pre hp rest.length rest

theorem listScanF_append {α : Type} {m : MatcherM α} {Q : Char → Prop}
    (hm : ∀ (c : Char) (s : List Char), ¬ Q c → m (c :: s) = none) :
    ∀ (pre : List Char), (∀ x ∈ pre, ¬ Q x) → ∀ (fuel : Nat) (rest : List Char),
      listScanF m (pre.length + fuel) (pre ++ rest) = listScanF m fuel rest := by
  intro pre
  induction pre with
  | nil => intro _ fuel rest; simp
  | cons c t ih =>
    intro hp fuel rest
    have hc : m (c :: (t ++ rest)) = none := hm _ _ (hp c (by simp))
    show listScanF m (t.length + 1 + fuel) (c :: (t ++ rest)) = _
    have : t.length + 1 + fuel = (t.length + fuel) + 1 := by omega
    rw [this]
    simp only [listScanF, hc]
    exact ih (fun x hx => hp x (by simp [hx])) fuel rest

theorem listScan_append {α : Type} {m : MatcherM α} {Q : Char → Prop}
    (hm : ∀ (c : Char) (s : List Char), ¬ Q c → m (c :: s) = none)
    {pre : List Char} (hp : ∀ x ∈ pre, ¬ Q x) (rest : List Char) :
    listScan m (pre ++ rest) = listScanF m rest.length rest := by
  unfold listScan
  rw [List.length_append]
  exact listScanF_append hm pre hp rest.length rest

/-! ### Trigger lemmas for the concrete matchers -/

theorem cookieTakeAt_none_head {c : Char} {s : List Char} (hc : ¬ c = '[') :
    cookieTakeAt (c :: s) = none := by
  unfold cookieTakeAt
  split
  · rename_i heq; injection heq with h1 _; exact absurd h1 hc
  · rfl

theorem cookieBareAt_none_head {c : Char} {s : List Char} (hc : ¬ c = '[') :
    cookieBareAt (c :: s) = none := by
  unfold cookieBareAt
  split
  · rename_i heq; injection heq with h1 _; exact absurd h1 hc
  · rfl

theorem tagAt_none_head {c : Char} {s : List Char} (hc : ¬ c = '#') :
    tagAt (c :: s) = none := by
  unfold tagAt
  split
  · rename_i heq; injection heq with h1 _; exact absurd h1 hc
  · rfl

theorem blockRefAt_none_head {c : Char} {s : List Char} (hc : ¬ c = '(') :
    blockRefAt (c :: s) = none := by
  unfold blockRefAt
  split
  · rename_i heq; injection heq with h1 _; exact absurd h1 hc
  · rfl

theorem pageRefAt_none_head {c : Char} {s : List Char} (hc : ¬ c = '[') :
    pageRefAt (c :: s) = none := by
  unfold pageRefAt
  split
  · rename_i heq; injection heq with h1 _; exact absurd h1 hc
  · rfl

theorem cookieTakeAt_mem {t : List Char} (h : cookieTakeAt t ≠ none) : '[' ∈ t := by
  cases t with
  | nil => simp [cookieTakeAt] at h
  | cons c s =>
    by_cases hc : c = '['
    · simp [hc]
    · exact absurd (cookieTakeAt_none_head hc) h

theorem cookieBareAt_mem {t : List Char} (h : cookieBareAt t ≠ none) : '[' ∈ t := by
  cases t with
  | nil => simp [cookieBareAt] at h
  | cons c s =>
    by_cases hc : c = '['
    · simp [hc]
    · exact absurd (cookieBareAt_none_head hc) h

theorem tagAt_mem {t : List Char} (h : tagAt t ≠ none) : '#' ∈ t := by
  cases t with
  | nil => simp [tagAt] at h
  | cons c s =>
    by_cases hc : c = '#'
    · simp [hc]
    · exact absurd (tagAt_none_head hc) h

theorem blockRefAt_mem {t : List Char} (h : blockRefAt t ≠ none) : '(' ∈ t := by
  cases t with
  | nil => simp [blockRefAt] at h
  | cons c s =>
    by_cases hc : c = '('
    · simp [hc]
    · exact absurd (blockRefAt_none_head hc) h

theorem pageRefAt_mem {t : List Char} (h : pageRefAt t ≠ none) : '[' ∈ t := by
  cases t with
  | nil => simp [pageRefAt] at h
  | cons c s =>
    by_cases hc : c = '['
    · simp [hc]
    · exact absurd (pageRefAt_none_head hc) h

theorem markerAt_mem {kw t : List Char} (hkw : ':' ∈ kw)
    (h : markerAt kw t ≠ none) : ':' ∈ t := by
  unfold markerAt at h
  by_cases hp : kw.isPrefixOf t = true
  · exact mem_of_isPrefixOf hp hkw
  · simp [hp] at h

theorem propAt_mem {t : List Char} (h : propAt t ≠ none) : ':' ∈ t := by
  cases t with
  | nil => simp [propAt] at h
  | cons c s =>
    unfold propAt at h
    by_cases hks : isKeyStart c = true
    · simp only [hks, if_true] at h
      set n := (c :: s.takeWhile isKeyChar).length - 1 with hn
      cases hd : s.drop n with
      | nil => rw [hd] at h; simp at h
      | cons d r2 =>
        rw [hd] at h
        by_cases hdc : d = ':'
        · subst hdc
          have : ':' ∈ s.drop n := by rw [hd]; simp
          exact List.mem_cons_of_mem c (List.drop_subset n s this)
        · exfalso
          apply h
          split
          · rename_i heq
            injection heq with h1 _
            exact absurd h1 hdc
          · rfl
    · simp [hks] at h

/-! ### Character-class facts and firing lemmas -/

theorem keyChar_not_ws {x : Char} (h : isKeyChar x = true) : isWs x = false := by
  by_contra hw
  simp only [Bool.not_eq_false, isWs, decide_eq_true_eq] at hw
  rcases hw with e | e | e <;> (subst e; exact absurd h (by decide))

theorem keyChar_ne {x y : Char} (h : isKeyChar x = true) (hy : isKeyChar y = false) :
    ¬ x = y := by
  intro e; subst e; rw [h] at hy; cases hy

theorem hexL_not_ws {x : Char} (h : isHexL x = true) : isWs x = false := by
  by_contra hw
  simp only [Bool.not_eq_false, isWs, decide_eq_true_eq] at hw
  rcases hw with e | e | e <;> (subst e; exact absurd h (by decide))

theorem cookieTake_fire {p : Char} (hp : p = 'A' ∨ p = 'B' ∨ p = 'C')
    {c : List Char} (hc : c.dropWhile isWs = c) :
    findScanR cookieTakeAt ('[' :: '#' :: p :: ']' :: ' ' :: c) = some (p, c) := by
  have ht : c.takeWhile isWs = [] := takeWhile_nil_of_dropWhile_self hc
  simp [findScanR, findScanRF, cookieTakeAt, if_pos hp, List.takeWhile_cons, isWs, ht]

theorem kwFind_fire {K : List Char} (hK : K ∈ kwList) (rest : List Char) :
    kwFind (K ++ ' ' :: rest) = some (K, rest.dropWhile isWs) := by
  fin_cases hK <;> rfl

theorem fullUuidMatch_none_head {c : Char} {s : List Char}
    (h : isHexDash c = false) : fullUuidMatch (c :: s) = none := by
  unfold fullUuidMatch
  apply if_neg
  rintro ⟨-, hall, -⟩
  have hc : c ∈ (c :: s).take 36 := by
    rw [List.take_succ_cons]; simp
  have := (List.all_eq_true.mp hall) c hc
  rw [h] at this
  cases this

theorem shortUuidMatch_none_head {c : Char} {s : List Char}
    (h : isHexL c = false) : shortUuidMatch (c :: s) = none := by
  unfold shortUuidMatch
  apply if_neg
  rintro ⟨-, hall, -⟩
  have hc : c ∈ (c :: s).take 8 := by
    rw [List.take_succ_cons]; simp
  have := (List.all_eq_true.mp hall) c hc
  rw [h] at this
  cases this

theorem shortUuidMatch_fire {u8 t : List Char} (h8 : u8.length = 8)
    (hhex : u8.all isHexL = true) (ht : t.dropWhile isWs = t) :
    shortUuidMatch (u8 ++ ' ' :: t) = some (u8, t) := by
  have htake : (u8 ++ ' ' :: t).take 8 = u8 := by
    rw [← h8]; exact List.take_left u8 (' ' :: t)
  have hdrop : (u8 ++ ' ' :: t).drop 8 = ' ' :: t := by
    rw [← h8]; exact List.drop_left u8 (' ' :: t)
  simp only [shortUuidMatch, htake, hdrop]
  rw [if_pos ⟨h8, hhex, show isWs ((' ' :: t).headD 'x') = true from by
    rw [List.headD_cons]; decide⟩]
  simp only [List.dropWhile_cons]
  rw [show isWs ' ' = true from by decide, if_pos rfl, ht]

theorem fullUuidMatch_none_u8 {u8 t : List Char} (h8 : u8.length = 8) :
    fullUuidMatch (u8 ++ ' ' :: t) = none := by
  unfold fullUuidMatch
  apply if_neg
  rintro ⟨-, hall, -⟩
  have htake : (u8 ++ ' ' :: t).take 36 = u8 ++ (' ' :: t).take 28 := by
    rw [show (36 : Nat) = u8.length + 28 from by omega]
    exact List.take_append 28
  rw [htake] at hall
  have hsp : ' ' ∈ u8 ++ (' ' :: t).take 28 := by
    rw [List.take_succ_cons]; simp
  have := (List.all_eq_true.mp hall) ' ' hsp
  rw [show isHexDash ' ' = false from by decide] at this
  cases this

theorem propsObject_nil : propsObject [] = [] := rfl

theorem cleanChain {s : List Char}
    (h1 : findScanR (markerAt schedKw) s = none)
    (h2 : findScanR (markerAt dlKw) s = none)
    (h3 : findScanR propAt s = none)
    (h4 : findScanR cookieBareAt s = none)
    (hL : s.dropWhile isWs = s) (hR : s.reverse.dropWhile isWs = s.reverse) :
    trimS (removeScan cookieBareAt (removeScan propAt
      (removeScan (markerAt dlKw) (removeScan (markerAt schedKw) s)))) = s := by
  rw [removeScan_eq_self h1, removeScan_eq_self h2, removeScan_eq_self h3,
      removeScan_eq_self h4]
  exact trimS_eq_self hL hR

/-! ### The parser on metadata-free content -/

theorem parseRest_plain (kw : Option (List Char)) (hkw : ∀ K, kw = some K → K ∈ kwList)
    (pr : Option Char) (hpr : ∀ p, pr = some p → p = 'A' ∨ p = 'B' ∨ p = 'C')
    {c : List Char} (hc : PlainContent c) :
    parseRest (todoPart kw ++ prioPart pr ++ c) =
      ⟨kw, pr, none, none, [],
       listScan blockRefAt c ++ listScan pageRefAt c ++ listScan tagAt c, c⟩ := by
  obtain ⟨hne, hL, hR, hfull, hshort, hkwf, hct, hcb, hsch, hdl, hprop⟩ := hc
  have htail : listScan propAt c = [] := listScan_nil hprop
  have hclean := cleanChain hsch hdl hprop hcb hL hR
  have hcook :
      (match findScanR cookieTakeAt (prioPart pr ++ c) with
       | some (p, r) => (some p, r)
       | none => (none, prioPart pr ++ c)) = (pr, c) := by
    cases pr with
    | none => simp [prioPart, hct]
    | some p =>
      have hpp : prioPart (some p) ++ c = '[' :: '#' :: p :: ']' :: ' ' :: c := by
        simp [prioPart]
      rw [hpp, cookieTake_fire (hpr p rfl) hL]
  cases kw with
  | none =>
    have hkfind : kwFind (todoPart none ++ prioPart pr ++ c) = none := by
      cases pr with
      | none => simpa [todoPart, prioPart] using hkwf
      | some p =>
        have hpp : todoPart none ++ prioPart (some p) ++ c
            = '[' :: ('#' :: p :: ']' :: ' ' :: c) := by simp [todoPart, prioPart]
        rw [hpp]
        rfl
    simp only [parseRest, hkfind]
    simp only [todoPart, List.nil_append] at *
    rw [hcook]
    simp only [hsch, hdl, htail, propsObject_nil, hclean, Option.map_none']
  | some K =>
    have hkfind : kwFind (todoPart (some K) ++ prioPart pr ++ c)
        = some (K, prioPart pr ++ c) := by
      have hpp : todoPart (some K) ++ prioPart pr ++ c
          = K ++ ' ' :: (prioPart pr ++ c) := by simp [todoPart]
      have hs2L : (prioPart pr ++ c).dropWhile isWs = prioPart pr ++ c := by
        cases pr with
        | none => simpa [prioPart] using hL
        | some p =>
          simp only [prioPart, List.cons_append, List.dropWhile_cons]
          rw [show isWs '[' = false from by decide]
          simp
      rw [hpp, kwFind_fire (hkw K rfl), hs2L]
    simp only [parseRest, hkfind]
    rw [hcook]
    simp only [hsch, hdl, htail, propsObject_nil, hclean, Option.map_none']

theorem kw_dropWhile {K : List Char} (hK : K ∈ kwList) (r : List Char) :
    (K ++ r).dropWhile isWs = K ++ r := by
  fin_cases hK <;> rfl

theorem uuidNone_kw {K : List Char} (hK : K ∈ kwList) (r : List Char) :
    fullUuidMatch (K ++ r) = none ∧ shortUuidMatch (K ++ r) = none := by
  fin_cases hK <;>
    exact ⟨fullUuidMatch_none_head (by decide), shortUuidMatch_none_head (by decide)⟩

theorem tail_dropWhile (kw : Option (List Char)) (hkw : ∀ K, kw = some K → K ∈ kwList)
    (pr : Option Char) {c : List Char} (hL : c.dropWhile isWs = c) :
    (todoPart kw ++ prioPart pr ++ c).dropWhile isWs
      = todoPart kw ++ prioPart pr ++ c := by
  cases kw with
  | some K =>
    have hpp : todoPart (some K) ++ prioPart pr ++ c
        = K ++ (' ' :: (prioPart pr ++ c)) := by simp [todoPart]
    rw [hpp, kw_dropWhile (hkw K rfl), ← hpp]
  | none =>
    cases pr with
    | none => simpa [todoPart, prioPart] using hL
    | some p =>
      simp only [todoPart, prioPart, List.nil_append, List.cons_append,
        List.dropWhile_cons]
      rw [show isWs '[' = false from by decide]
      simp

theorem uuidNone_tail (kw : Option (List Char)) (hkw : ∀ K, kw = some K → K ∈ kwList)
    (pr : Option Char) {c : List Char}
    (hfull : fullUuidMatch c = none) (hshort : shortUuidMatch c = none) :
    fullUuidMatch (todoPart kw ++ prioPart pr ++ c) = none ∧
    shortUuidMatch (todoPart kw ++ prioPart pr ++ c) = none := by
  cases kw with
  | some K =>
    have hpp : todoPart (some K) ++ prioPart pr ++ c
        = K ++ (' ' :: (prioPart pr ++ c)) := by simp [todoPart]
    rw [hpp]
    exact uuidNone_kw (hkw K rfl) _
  | none =>
    cases pr with
    | none => simpa [todoPart, prioPart] using ⟨hfull, hshort⟩
    | some p =>
      have hpp : todoPart none ++ prioPart (some p) ++ c
          = '[' :: ('#' :: p :: ']' :: ' ' :: c) := by simp [todoPart, prioPart]
      rw [hpp]
      exact ⟨fullUuidMatch_none_head (by decide), shortUuidMatch_none_head (by decide)⟩
theorem parseLine_mk (gen : Nat → List Char) (ctr : Nat)
    (kw : Option (List Char)) (hkw : ∀ K, kw = some K → K ∈ kwList)
    (pr : Option Char) (hpr : ∀ p, pr = some p → p = 'A' ∨ p = 'B' ∨ p = 'C')
    {c : List Char} (hc : PlainContent c) :
    parseLineCore gen ctr (mkSrcLine kw pr c) =
      (some ⟨gen ctr, c, 0, kw, pr, none, none, [],
        listScan blockRefAt c ++ listScan pageRefAt c ++ listScan tagAt c⟩, ctr + 1) := by
  have hXL := tail_dropWhile kw hkw pr hc.2.1
  have huuid := uuidNone_tail kw hkw pr hc.2.2.2.1 hc.2.2.2.2.1
  have hassoc : mkSrcLine kw pr c
      = ('-' :: ' ' :: (todoPart kw ++ prioPart pr)) ++ c := by
    simp [mkSrcLine]
  have htrim : trimS (mkSrcLine kw pr c) = mkSrcLine kw pr c := by
    unfold trimS trimL
    rw [show (mkSrcLine kw pr c).dropWhile isWs = mkSrcLine kw pr c by
      rw [mkSrcLine, List.dropWhile_cons, show isWs '-' = false from by decide]
      simp]
    rw [hassoc]
    exact trimR_append hc.1 hc.2.2.1
  have hbullet : stripBullet (mkSrcLine kw pr c)
      = todoPart kw ++ prioPart pr ++ c := by
    rw [mkSrcLine, stripBullet, if_pos (Or.inl rfl), List.dropWhile_cons,
      show isWs ' ' = true from by decide, if_pos rfl, hXL]
  have hlevel : ((mkSrcLine kw pr c).takeWhile isWs).length / 2 = 0 := by
    rw [mkSrcLine, List.takeWhile_cons, show isWs '-' = false from by decide]
    simp
  have hne : mkSrcLine kw pr c ≠ [] := by rw [mkSrcLine]; simp
  have hhead : ¬ (mkSrcLine kw pr c).headD ' ' = '#' := by
    rw [mkSrcLine, List.headD_cons]; decide
  have hPR := parseRest_plain kw hkw pr hpr hc
  unfold parseLineCore
  rw [htrim, if_neg hne, if_neg hhead, hbullet]
  simp only [huuid.1, huuid.2, hPR, hlevel]
  rw [if_neg hc.1]

theorem serializeBlock_simple (u c : List Char) (kw : Option (List Char))
    (pr : Option Char) (refs : List (List Char)) :
    serializeBlock ⟨u, c, 0, kw, pr, none, none, [], refs⟩
      = '-' :: ' ' :: u.take 8 ++ ' ' :: (todoPart kw ++ prioPart pr ++ c) := by
  simp [serializeBlock, markerPart, propsPart]

theorem parseLine_ser (gen : Nat → List Char) (ctr : Nat)
    {u8 : List Char} (h8 : u8.length = 8) (hhex : u8.all isHexL = true)
    (kw : Option (List Char)) (hkw : ∀ K, kw = some K → K ∈ kwList)
    (pr : Option Char) (hpr : ∀ p, pr = some p → p = 'A' ∨ p = 'B' ∨ p = 'C')
    {c : List Char} (hc : PlainContent c) :
    parseLineCore gen ctr
        ('-' :: ' ' :: (u8 ++ ' ' :: (todoPart kw ++ prioPart pr ++ c))) =
      (some ⟨u8 ++ (gen (ctr + 1)).drop 8, c, 0, kw, pr, none, none, [],
        listScan blockRefAt c ++ listScan pageRefAt c ++ listScan tagAt c⟩, ctr + 2) := by
  set X := todoPart kw ++ prioPart pr ++ c with hX
  have hXL := tail_dropWhile kw hkw pr hc.2.1
  have hU8ne : u8 ≠ [] := by intro e; rw [e] at h8; simp at h8
  have hU8drop : u8.dropWhile isWs = u8 :=
    dropWhile_eq_self_of_all (fun x hx => hexL_not_ws (List.all_eq_true.mp hhex x hx))
  have hassoc : '-' :: ' ' :: (u8 ++ ' ' :: X)
      = ('-' :: ' ' :: (u8 ++ ' ' :: (todoPart kw ++ prioPart pr))) ++ c := by
    simp [hX]
  have htrim : trimS ('-' :: ' ' :: (u8 ++ ' ' :: X)) = '-' :: ' ' :: (u8 ++ ' ' :: X) := by
    unfold trimS trimL
    rw [List.dropWhile_cons, show isWs '-' = false from by decide]
    simp only [Bool.false_eq_true, if_false]
    rw [hassoc]
    exact trimR_append hc.1 hc.2.2.1
  have hbullet : stripBullet ('-' :: ' ' :: (u8 ++ ' ' :: X)) = u8 ++ ' ' :: X := by
    rw [stripBullet, if_pos (Or.inl rfl), List.dropWhile_cons,
      show isWs ' ' = true from by decide, if_pos rfl]
    exact dropWhile_append_left hU8ne hU8drop
  have hlevel : (('-' :: ' ' :: (u8 ++ ' ' :: X)).takeWhile isWs).length / 2 = 0 := by
    rw [List.takeWhile_cons, show isWs '-' = false from by decide]
    simp
  have hne : ('-' :: ' ' :: (u8 ++ ' ' :: X)) ≠ [] := by simp
  have hhead : ¬ ('-' :: ' ' :: (u8 ++ ' ' :: X)).headD ' ' = '#' := by
    rw [List.headD_cons]; decide
  have hPR := parseRest_plain kw hkw pr hpr hc
  unfold parseLineCore
  rw [htrim, if_neg hne, if_neg hhead, hbullet]
  simp only [fullUuidMatch_none_u8 h8, shortUuidMatch_fire h8 hhex hXL, ← hX, hPR, hlevel]
  rw [if_neg hc.1]

/-- C7 (counterexample): two failures of the round trip.  First, the line
`- k: v TODO buy` parses to a block with `todo = none` and
`content = "TODO buy"`; serializing that block's fields back into the
persisted layout and re-parsing yields `todo = TODO` and `content = "buy"`.
Second, even a block whose content is free of every metadata syntax does
not round-trip once it carries scheduling or property tokens: the line
`- see note: SCHEDULED: <2025-01-10>` parses to content `"see note:"`
(which satisfies `PlainContent`), yet serializing and re-parsing gives
content `"see  SCHEDULED:"` — the re-serialized property and marker tokens
merge under the property-removal regex. -/
theorem spec_c7_counterexample :
    ((parseLineO genA 0 "- k: v TODO buy".toList).map BlockM.content
        = some "TODO buy".toList) ∧
    ((parseLineO genA 0 "- k: v TODO buy".toList).map BlockM.todo = some none) ∧
    (((parseLineO genA 0 "- k: v TODO buy".toList).bind
        (fun b => parseLineO genA 1 (serializeBlock b))).map BlockM.content
        = some "buy".toList) ∧
    (((parseLineO genA 0 "- k: v TODO buy".toList).bind
        (fun b => parseLineO genA 1 (serializeBlock b))).map BlockM.todo
        = some (some "TODO".toList)) ∧
    PlainContent "see note:".toList ∧
    ((parseLineO genA 0 "- see note: SCHEDULED: <2025-01-10>".toList).map
        BlockM.content = some "see note:".toList) ∧
    ((parseLineO genA 0 "- see note: SCHEDULED: <2025-01-10>".toList).map
        BlockM.scheduled = some (some "2025-01-10".toList)) ∧
    (((parseLineO genA 0 "- see note: SCHEDULED: <2025-01-10>".toList).bind
        (fun b => parseLineO genA 1 (serializeBlock b))).map BlockM.content
        = some "see  SCHEDULED:".toList) := by decide

/-- C7 (amended): for any block the parser produces from a bullet line
consisting of an optional task keyword, an optional priority cookie and
content free of every metadata syntax the parser extracts (no embedded
identity token, no leading task keyword, no priority cookie, no scheduling
marker, no inline-property token) — such blocks carry no `scheduled`, no
`deadline` and no `properties` — serializing the block's extracted fields
and re-parsing reproduces the same `content`, `taskState`, `priority`,
`scheduled`, `deadline` and `properties`.  Blocks whose line carried
scheduling or property tokens do not round-trip in general, even when
their cleaned content is metadata-free (see the counterexample). -/
theorem spec_c7_roundtrip (gen : Nat → List Char)
    (h8 : ((gen 0).take 8).length = 8) (hhex : ((gen 0).take 8).all isHexL = true)
    (kw : Option (List Char)) (hkw : ∀ K, kw = some K → K ∈ kwList)
    (pr : Option Char) (hpr : ∀ p, pr = some p → p = 'A' ∨ p = 'B' ∨ p = 'C')
    (c : List Char) (hc : PlainContent c) :
    ∃ b b2 : BlockM,
      parseLineO gen 0 (mkSrcLine kw pr c) = some b ∧
      parseLineO gen 1 (serializeBlock b) = some b2 ∧
      b.content = c ∧ b.todo = kw ∧ b.priority = pr ∧
      b.scheduled = none ∧ b.deadline = none ∧ b.properties = [] ∧
      b2.content = b.content ∧ b2.todo = b.todo ∧ b2.priority = b.priority ∧
      b2.scheduled = b.scheduled ∧ b2.deadline = b.deadline ∧
      b2.properties = b.properties := by
  have h1 := parseLine_mk gen 0 kw hkw pr hpr hc
  have h2 := parseLine_ser gen 1 h8 hhex kw hkw pr hpr hc
  refine ⟨⟨gen 0, c, 0, kw, pr, none, none, [],
      listScan blockRefAt c ++ listScan pageRefAt c ++ listScan tagAt c⟩,
    ⟨(gen 0).take 8 ++ (gen 2).drop 8, c, 0, kw, pr, none, none, [],
      listScan blockRefAt c ++ listScan pageRefAt c ++ listScan tagAt c⟩,
    ?_, ?_, rfl, rfl, rfl, rfl, rfl, rfl, rfl, rfl, rfl, rfl, rfl, rfl⟩
  · rw [parseLineO, h1]
  · rw [parseLineO, serializeBlock_simple]
    rw [show ('-' :: ' ' :: (gen 0).take 8 ++ ' ' :: (todoPart kw ++ prioPart pr ++ c))
        = '-' :: ' ' :: ((gen 0).take 8 ++ ' ' :: (todoPart kw ++ prioPart pr ++ c))
      from by simp]
    rw [h2]

/-- Closed witness for the amended C7 round trip at a concrete session:
keyword `TODO`, priority `A`, content `Ship it`. -/
theorem spec_c7_roundtrip_witness :
    ∃ b b2 : BlockM,
      parseLineO genA 0 (mkSrcLine (some "TODO".toList) (some 'A') "Ship it".toList)
        = some b ∧
      parseLineO genA 1 (serializeBlock b) = some b2 ∧
      b.content = "Ship it".toList ∧ b.todo = some "TODO".toList ∧
      b.priority = some 'A' ∧
      b.scheduled = none ∧ b.deadline = none ∧ b.properties = [] ∧
      b2.content = b.content ∧ b2.todo = b.todo ∧ b2.priority = b.priority ∧
      b2.scheduled = b.scheduled ∧ b2.deadline = b.deadline ∧
      b2.properties = b.properties :=
  spec_c7_roundtrip genA (by decide) (by decide)
    (some "TODO".toList) (by intro K h; injection h with h; subst h; decide)
    (some 'A') (by intro p h; injection h with h; subst h; exact Or.inl rfl)
    "Ship it".toList (by decide)

/-- C4: parsing the single body line
`- TODO [#A] Ship release SCHEDULED: <2025-01-10>` produces exactly one
block with `taskState = TODO`, `priority = A`, `scheduled = "2025-01-10"`
and `content = "Ship release"`. -/
theorem spec_c4_example :
    ((parseBlocksM genA 0
        "- TODO [#A] Ship release SCHEDULED: <2025-01-10>".toList).1.map
      BlockM.todo = [some "TODO".toList]) ∧
    ((parseBlocksM genA 0
        "- TODO [#A] Ship release SCHEDULED: <2025-01-10>".toList).1.map
      BlockM.priority = [some 'A']) ∧
    ((parseBlocksM genA 0
        "- TODO [#A] Ship release SCHEDULED: <2025-01-10>".toList).1.map
      BlockM.scheduled = [some "2025-01-10".toList]) ∧
    ((parseBlocksM genA 0
        "- TODO [#A] Ship release SCHEDULED: <2025-01-10>".toList).1.map
      BlockM.content = ["Ship release".toList]) := by decide

/-- C5 (counterexample): the line `- hello #world` extracts the hash tag
`world` into `references`, yet the tag's textual span `#world` is NOT
removed: it remains verbatim inside `content`, contradicting the claim that
content contains none of the extracted syntax markers. -/
theorem spec_c5_counterexample :
    ((parseLineO genA 0 "- hello #world".toList).map BlockM.refs
        = some ["world".toList]) ∧
    ((parseLineO genA 0 "- hello #world".toList).map
        (fun b => containsB b.content ('#' :: "world".toList)) = some true) ∧
    ((parseLineO genA 0 "- hello #world".toList).map BlockM.content
        = some "hello #world".toList) := by decide

theorem listScanF_nil_input {α : Type} {m : MatcherM α} :
    ∀ fuel : Nat, listScanF m fuel [] = [] := by
  intro fuel; cases fuel <;> rfl

theorem tagScan_fire {t : List Char} (h1 : t ≠ []) (h2 : t.all isKeyChar = true) :
    listScanF tagAt ('#' :: t).length ('#' :: t) = [t] := by
  have htw : t.takeWhile isKeyChar = t :=
    takeWhile_eq_self_of_all (List.all_eq_true.mp h2)
  have hdrop : ('#' :: t).drop (max (1 + t.length) 1) = [] := by
    rw [Nat.max_eq_left (by omega)]
    rw [show (1 + t.length) = t.length + 1 from by omega]
    rw [List.drop_succ_cons, List.drop_length]
  show listScanF tagAt (t.length + 1) ('#' :: t) = [t]
  rw [listScanF]
  rw [show tagAt ('#' :: t) = some (t, 1 + t.length) from by
    rw [tagAt, htw, if_pos h1]]
  show t :: listScanF tagAt t.length (('#' :: t).drop (max (1 + t.length) 1)) = [t]
  rw [hdrop, listScanF_nil_input]

/-- C5 (amended): for every non-empty tag name `t` over the tag character
class, parsing `- hello #t` produces exactly one block whose `references`
hold the extracted tag `t`, while the tag's span `#t` is left inside
`content` (reference spans are extracted but never removed; only scheduling
markers, inline properties and priority cookies are removed). -/
theorem spec_c5_amended (gen : Nat → List Char) (ctr : Nat) {t : List Char}
    (h1 : t ≠ []) (h2 : t.all isKeyChar = true) :
    ∃ b : BlockM,
      parseLineO gen ctr ('-' :: ' ' :: ("hello #".toList ++ t)) = some b ∧
      b.refs = [t] ∧
      b.content = "hello #".toList ++ t ∧
      containsB b.content ('#' :: t) = true := by
  have hkc : ∀ x ∈ t, isKeyChar x = true := List.all_eq_true.mp h2
  have hnws : ∀ x ∈ t, isWs x = false := fun x hx => keyChar_not_ws (hkc x hx)
  have htL : t.dropWhile isWs = t := dropWhile_eq_self_of_all hnws
  have htR : t.reverse.dropWhile isWs = t.reverse :=
    dropWhile_eq_self_of_all (fun x hx => hnws x (List.mem_reverse.mp hx))
  have hXchars : ∀ x ∈ "hello #".toList ++ t, x ≠ '[' ∧ x ≠ ':' ∧ x ≠ '(' := by
    intro x hx
    rcases List.mem_append.mp hx with hx | hx
    · fin_cases hx <;> refine ⟨by decide, by decide, by decide⟩
    · exact ⟨keyChar_ne (hkc x hx) (by decide), keyChar_ne (hkc x hx) (by decide),
        keyChar_ne (hkc x hx) (by decide)⟩
  have hnoCt : findScanR cookieTakeAt ("hello #".toList ++ t) = none :=
    findScanR_none_of_mem (Q := fun x => x = '[')
      (fun s hs => ⟨'[', cookieTakeAt_mem hs, rfl⟩)
      (fun x hx => (hXchars x hx).1)
  have hnoCb : findScanR cookieBareAt ("hello #".toList ++ t) = none :=
    findScanR_none_of_mem (Q := fun x => x = '[')
      (fun s hs => ⟨'[', cookieBareAt_mem hs, rfl⟩)
      (fun x hx => (hXchars x hx).1)
  have hnoSch : findScanR (markerAt schedKw) ("hello #".toList ++ t) = none :=
    findScanR_none_of_mem (Q := fun x => x = ':')
      (fun s hs => ⟨':', markerAt_mem (by decide) hs, rfl⟩)
      (fun x hx => (hXchars x hx).2.1)
  have hnoDl : findScanR (markerAt dlKw) ("hello #".toList ++ t) = none :=
    findScanR_none_of_mem (Q := fun x => x = ':')
      (fun s hs => ⟨':', markerAt_mem (by decide) hs, rfl⟩)
      (fun x hx => (hXchars x hx).2.1)
  have hnoProp : findScanR propAt ("hello #".toList ++ t) = none :=
    findScanR_none_of_mem (Q := fun x => x = ':')
      (fun s hs => ⟨':', propAt_mem hs, rfl⟩)
      (fun x hx => (hXchars x hx).2.1)
  have hnoBr : findScanR blockRefAt ("hello #".toList ++ t) = none :=
    findScanR_none_of_mem (Q := fun x => x = '(')
      (fun s hs => ⟨'(', blockRefAt_mem hs, rfl⟩)
      (fun x hx => (hXchars x hx).2.2)
  have hnoPr : findScanR pageRefAt ("hello #".toList ++ t) = none :=
    findScanR_none_of_mem (Q := fun x => x = '[')
      (fun s hs => ⟨'[', pageRefAt_mem hs, rfl⟩)
      (fun x hx => (hXchars x hx).1)
  have htagscan : listScan tagAt ("hello #".toList ++ t) = [t] := by
    rw [show "hello #".toList ++ t = "hello ".toList ++ ('#' :: t) from by simp,
      listScan_append (Q := fun x => x = '#')
        (fun c s hcs => tagAt_none_head hcs)
        (by intro x hx; fin_cases hx <;> decide) ('#' :: t)]
    exact tagScan_fire h1 h2
  have hXL : ("hello #".toList ++ t).dropWhile isWs = "hello #".toList ++ t := by
    apply dropWhile_append_left (by decide)
    rfl
  have hXR : ("hello #".toList ++ t).reverse.dropWhile isWs
      = ("hello #".toList ++ t).reverse := by
    rw [List.reverse_append]
    apply dropWhile_append_left (by simpa using h1)
    exact htR
  have hXne : "hello #".toList ++ t ≠ [] := by simp
  have hclean := cleanChain hnoSch hnoDl hnoProp hnoCb hXL hXR
  have htrim : trimS ('-' :: ' ' :: ("hello #".toList ++ t))
      = '-' :: ' ' :: ("hello #".toList ++ t) := by
    unfold trimS trimL
    rw [List.dropWhile_cons, show isWs '-' = false from by decide]
    simp only [Bool.false_eq_true, if_false]
    rw [show '-' :: ' ' :: ("hello #".toList ++ t)
        = ('-' :: ' ' :: "hello #".toList) ++ t from by simp]
    exact trimR_append h1 htR
  have hbullet : stripBullet ('-' :: ' ' :: ("hello #".toList ++ t))
      = "hello #".toList ++ t := by
    rw [stripBullet, if_pos (Or.inl rfl), List.dropWhile_cons,
      show isWs ' ' = true from by decide, if_pos rfl, hXL]
  have hfull : fullUuidMatch ("hello #".toList ++ t) = none :=
    fullUuidMatch_none_head (by decide)
  have hshort : shortUuidMatch ("hello #".toList ++ t) = none :=
    shortUuidMatch_none_head (by decide)
  have hkwf : kwFind ("hello #".toList ++ t) = none := rfl
  refine ⟨⟨gen ctr, "hello #".toList ++ t, 0, none, none, none, none, [], [t]⟩,
    ?_, rfl, rfl, ?_⟩
  · rw [parseLineO]
    unfold parseLineCore
    rw [htrim, if_neg (by simp), if_neg (by rw [List.headD_cons]; decide), hbullet]
    simp only [hfull, hshort]
    rw [show parseRest ("hello #".toList ++ t)
        = ⟨none, none, none, none, [], [t], "hello #".toList ++ t⟩ from ?_]
    · have hlevel : (List.takeWhile isWs
          ('-' :: ' ' :: ("hello #".toList ++ t))).length / 2 = 0 := by
        rw [List.takeWhile_cons, show isWs '-' = false from by decide]
        simp
      rw [if_neg hXne, hlevel]
    · simp only [parseRest, hkwf, hnoCt, hnoSch, hnoDl]
      rw [listScan_nil hnoProp, listScan_nil hnoBr, listScan_nil hnoPr, htagscan]
      simp only [propsObject_nil, hclean, Option.map_none']
      rfl
  · show containsB ("hello #".toList ++ t) ('#' :: t) = true
    rw [show "hello #".toList ++ t = "hello ".toList ++ (('#' :: t) ++ []) from by simp]
    exact containsB_mid _ _ _

/-- Closed witness for the amended C5 at the concrete tag `news`. -/
theorem spec_c5_amended_witness :
    ∃ b : BlockM,
      parseLineO genA 0 ('-' :: ' ' :: ("hello #".toList ++ "news".toList))
        = some b ∧
      b.refs = ["news".toList] ∧
      b.content = "hello #".toList ++ "news".toList ∧
      containsB b.content ('#' :: "news".toList) = true :=
  spec_c5_amended genA 0 (by decide) (by decide)

/-- C6 (counterexample): for the line `- Buy milk [#B] today` the parser
extracts priority `B`, but `content` is `"today"` — the text `Buy milk`
preceding the cookie is discarded, not preserved. -/
theorem spec_c6_counterexample :
    ((parseLineO genA 0 "- Buy milk [#B] today".toList).map BlockM.priority
        = some (some 'B')) ∧
    ((parseLineO genA 0 "- Buy milk [#B] today".toList).map BlockM.content
        = some "today".toList) ∧
    ¬ ((parseLineO genA 0 "- Buy milk [#B] today".toList).map BlockM.content
        = some "Buy milk today".toList) := by decide

/-- C6 (amended): a priority cookie is consumed as `priority` at any
position of the line, but the block's `content` is only the remainder AFTER
the cookie: for any non-empty cookie-free text `pre` and metadata-free text
`post`, parsing `- pre[#X] post` yields priority `X` and content `post`,
with `pre` discarded. -/
theorem spec_c6_amended (gen : Nat → List Char) (ctr : Nat)
    {b : Char} (hb : b = 'A' ∨ b = 'B' ∨ b = 'C')
    {pre post : List Char}
    (hpre1 : pre ≠ [])
    (hpre2 : ∀ x ∈ pre, ¬ x = '[')
    (hpreL : pre.dropWhile isWs = pre)
    (hcomp1 : fullUuidMatch (pre ++ '[' :: '#' :: b :: ']' :: ' ' :: post) = none)
    (hcomp2 : shortUuidMatch (pre ++ '[' :: '#' :: b :: ']' :: ' ' :: post) = none)
    (hcomp3 : kwFind (pre ++ '[' :: '#' :: b :: ']' :: ' ' :: post) = none)
    (hpost : PlainContent post) :
    ∃ blk : BlockM,
      parseLineO gen ctr
          ('-' :: ' ' :: (pre ++ '[' :: '#' :: b :: ']' :: ' ' :: post))
        = some blk ∧
      blk.priority = some b ∧ blk.content = post := by
  obtain ⟨hne, hL, hR, hfull, hshort, hkwf, hct, hcb, hsch, hdl, hprop⟩ := hpost
  set X := pre ++ '[' :: '#' :: b :: ']' :: ' ' :: post with hX
  have hcookie : findScanR cookieTakeAt X = some (b, post) := by
    rw [hX, findScanR_append (Q := fun x => x = '[')
      (fun c s hcs => cookieTakeAt_none_head hcs) hpre2 _]
    exact cookieTake_fire hb hL
  have hXL : X.dropWhile isWs = X := by
    rw [hX]; exact dropWhile_append_left hpre1 hpreL
  have htrim : trimS ('-' :: ' ' :: X) = '-' :: ' ' :: X := by
    unfold trimS trimL
    rw [List.dropWhile_cons, show isWs '-' = false from by decide]
    simp only [Bool.false_eq_true, if_false]
    rw [show '-' :: ' ' :: X
        = ('-' :: ' ' :: (pre ++ '[' :: '#' :: b :: ']' :: [' '])) ++ post from by
      simp [hX]]
    exact trimR_append hne hR
  have hbullet : stripBullet ('-' :: ' ' :: X) = X := by
    rw [stripBullet, if_pos (Or.inl rfl), List.dropWhile_cons,
      show isWs ' ' = true from by decide, if_pos rfl, hXL]
  have hlevel : ((('-' :: ' ' :: X)).takeWhile isWs).length / 2 = 0 := by
    rw [List.takeWhile_cons, show isWs '-' = false from by decide]
    simp
  have hPR : parseRest X =
      ⟨none, some b, none, none, [],
       listScan blockRefAt post ++ listScan pageRefAt post ++ listScan tagAt post,
       post⟩ := by
    simp only [parseRest, hcomp3, hcookie, hsch, hdl]
    rw [listScan_nil hprop]
    simp only [propsObject_nil, Option.map_none']
    rw [cleanChain hsch hdl hprop hcb hL hR]
  refine ⟨⟨gen ctr, post, 0, none, some b, none, none, [],
      listScan blockRefAt post ++ listScan pageRefAt post ++ listScan tagAt post⟩,
    ?_, rfl, rfl⟩
  rw [parseLineO]
  unfold parseLineCore
  rw [htrim, if_neg (by simp), if_neg (by rw [List.headD_cons]; decide), hbullet]
  simp only [hcomp1, hcomp2, hPR]
  rw [if_neg hne, hlevel]

/-- Closed witness for the amended C6 at `pre = "Buy milk "`,
`post = "today"`, priority `B`. -/
theorem spec_c6_amended_witness :
    ∃ blk : BlockM,
      parseLineO genA 0
          ('-' :: ' ' :: ("Buy milk ".toList ++ '[' :: '#' :: 'B' :: ']' :: ' ' :: "today".toList))
        = some blk ∧
      blk.priority = some 'B' ∧ blk.content = "today".toList :=
  spec_c6_amended genA 0 (Or.inr (Or.inl rfl)) (by decide) (by decide) (by decide)
    (by decide) (by decide) (by decide) (by decide)

/-- C8: the search example scenario does return one page hit and one block
hit, but the universal claim fails: with one page `notes` holding two
consecutive blocks that both contain `urgent` (case-insensitively), the
stateful `g`-flagged regex's `lastIndex` carries over from the first
block's match, so the second matching block produces no hit — only one
block hit is returned for two matching blocks. -/
theorem spec_c8_search_bug :
    (searchModel genA filesUrgent "urgent".toList
       = [SearchHit.pageHit "Urgent Matters".toList,
          SearchHit.blockHit "Urgent Matters".toList "this is URGENT".toList]) ∧
    (((allPages genA 0 filesTwoUrgent).1.flatMap PageM.blocks).map
        (fun b => containsB (lowerStr b.content) (lowerStr "urgent".toList))
      = [true, true]) ∧
    ((searchModel genA filesTwoUrgent "urgent".toList).filter isBlockHit).length
      = 1 := by decide

theorem digitChar_ne_underscore : ∀ k : Nat, ¬ digitChar k = '_' := by
  intro k
  unfold digitChar
  split <;> decide

theorem natCharsF_ne_underscore :
    ∀ (fuel n : Nat) (c : Char), c ∈ natCharsF fuel n → ¬ c = '_' := by
  intro fuel
  induction fuel with
  | zero =>
    intro n c hc
    simp only [natCharsF, List.mem_singleton] at hc
    subst hc; exact digitChar_ne_underscore n
  | succ f ih =>
    intro n c hc
    unfold natCharsF at hc
    by_cases h10 : n < 10
    · rw [if_pos h10] at hc
      simp only [List.mem_singleton] at hc
      subst hc; exact digitChar_ne_underscore n
    · rw [if_neg h10] at hc
      rcases List.mem_append.mp hc with hc | hc
      · exact ih _ _ hc
      · simp only [List.mem_singleton] at hc
        subst hc; exact digitChar_ne_underscore _

theorem padZero_mem {w : Nat} {l : List Char} {c : Char}
    (hc : c ∈ padZero w l) : c = '0' ∨ c ∈ l := by
  unfold padZero at hc
  rcases List.mem_append.mp hc with h | h
  · exact Or.inl (List.eq_of_mem_replicate h)
  · exact Or.inr h

theorem isoDateStr_no_underscore {y m d : Nat} : ¬ '_' ∈ isoDateStr y m d := by
  intro hc
  unfold isoDateStr at hc
  have bad : ¬ ('_' : Char) = '0' := by decide
  rcases List.mem_append.mp hc with h | h
  · rcases List.mem_append.mp h with h | h
    · rcases padZero_mem h with e | h
      · exact bad e
      · exact natCharsF_ne_underscore _ _ _ h rfl
    · rcases List.mem_cons.mp h with e | h
      · exact absurd e (by decide)
      · rcases padZero_mem h with e | h
        · exact bad e
        · exact natCharsF_ne_underscore _ _ _ h rfl
  · rcases List.mem_cons.mp h with e | h
    · exact absurd e (by decide)
    · rcases padZero_mem h with e | h
      · exact bad e
      · exact natCharsF_ne_underscore _ _ _ h rfl

theorem isJournalName_underscore {n : List Char}
    (h : isJournalName n = true) : '_' ∈ n := by
  unfold isJournalName at h
  simp only [Bool.and_eq_true, decide_eq_true_eq] at h
  have hlen : n.length = 10 := h.1.1.1.1.1.1.1.1.1.1
  have h4 : n.getD 4 ' ' = '_' := h.1.1.1.1.1.2
  have hb : 4 < n.length := by omega
  rw [List.getD_eq_getElem n ' ' hb] at h4
  rw [← h4]
  exact List.getElem_mem hb

/-- C9: `create_journal_page` writes its file under the journals directory
with a hyphen-separated ISO `YYYY-MM-DD` name; re-parsing that file yields
`isJournal = true` but `journalDay = none`, because `journalDay` is derived
only from underscore-separated `YYYY_MM_DD` names and the hyphenated name
contains no underscore. -/
theorem spec_c9_journal (gen : Nat → List Char) (ctr : Nat)
    (basePath : List Char) (y m d : Nat) (locDate : List Char) :
    (createJournalPage basePath y m d locDate).dir
      = basePath ++ "/journals".toList ∧
    (createJournalPage basePath y m d locDate).name = isoDateStr y m d ∧
    (readPage gen ctr (createJournalPage basePath y m d locDate)).1.isJournal
      = true ∧
    (readPage gen ctr (createJournalPage basePath y m d locDate)).1.journalDay
      = none := by
  have hpath : filePathOf (createJournalPage basePath y m d locDate)
      = basePath ++ ("/journals/".toList ++ (isoDateStr y m d ++ ".md".toList)) := by
    unfold filePathOf createJournalPage
    simp
  have hJ : containsB (filePathOf (createJournalPage basePath y m d locDate))
      "/journals/".toList = true := by
    rw [hpath]; exact containsB_mid _ _ _
  refine ⟨rfl, rfl, ?_, ?_⟩
  · show containsB (filePathOf (createJournalPage basePath y m d locDate))
      "/journals/".toList = true
    exact hJ
  · show journalDayOf
      (containsB (filePathOf (createJournalPage basePath y m d locDate))
        "/journals/".toList)
      (isoDateStr y m d) = none
    unfold journalDayOf
    apply if_neg
    rintro ⟨-, hj⟩
    exact isoDateStr_no_underscore (isJournalName_underscore hj)

theorem splitOnNl_single {l : List Char} (h : ¬ '\n' ∈ l) : splitOnNl l = [l] := by
  induction l with
  | nil => rfl
  | cons c t ih =>
    unfold splitOnNl
    rw [if_neg (by intro e; exact h (by simp [e]))]
    rw [ih (by intro e; exact h (by simp [e]))]

theorem allWs_takeWhile {w : List Char} {c : Char} {x : List Char}
    (hw : ∀ y ∈ w, isWs y = true) (hc : isWs c = false) :
    (w ++ c :: x).takeWhile isWs = w := by
  induction w with
  | nil => simp [List.takeWhile_cons, hc]
  | cons a t ih =>
    rw [List.cons_append, List.takeWhile_cons, hw a (by simp)]
    simp only [if_true]
    rw [ih (fun y hy => hw y (by simp [hy]))]

theorem dashMatch_fire {w rest : List Char} (hw : ∀ y ∈ w, isWs y = true) :
    dashMatch (w ++ '-' :: ' ' :: rest) = some (w ++ ['-', ' ']) := by
  unfold dashMatch
  rw [allWs_takeWhile hw (by decide)]
  show (match List.drop w.length (w ++ '-' :: ' ' :: rest) with
    | '-' :: ' ' :: _ => some (w ++ ['-', ' '])
    | _ => none) = some (w ++ ['-', ' '])
  rw [List.drop_left]
  rfl

theorem findIdxB_none_spec {α : Type} {p : α → Bool} :
    ∀ {l : List α}, findIdxB p l = none → ∀ x ∈ l, p x = false := by
  intro l
  induction l with
  | nil => intro _ x hx; cases hx
  | cons a t ih =>
    intro h x hx
    unfold findIdxB at h
    by_cases hpa : p a = true
    · rw [if_pos hpa] at h; cases h
    · rw [if_neg hpa] at h
      rcases List.mem_cons.mp hx with e | hx'
      · subst e; exact Bool.not_eq_true _ |>.mp hpa
      · exact ih (by cases hfb : findIdxB p t with
          | none => rfl
          | some i => rw [hfb] at h; simp at h) x hx'

theorem findIdxB_none_of {α : Type} {p : α → Bool} :
    ∀ {l : List α}, (∀ x ∈ l, p x = false) → findIdxB p l = none := by
  intro l
  induction l with
  | nil => intro _; rfl
  | cons a t ih =>
    intro h
    unfold findIdxB
    rw [if_neg (by rw [h a (by simp)]; simp), ih (fun x hx => h x (by simp [hx]))]
    rfl

theorem findIdxB_some_spec {α : Type} {p : α → Bool} :
    ∀ {l : List α} {i : Nat}, findIdxB p l = some i →
      ∃ x, l[i]? = some x ∧ p x = true ∧
        ∀ j, j < i → ∀ y, l[j]? = some y → p y = false := by
  intro l
  induction l with
  | nil => intro i h; cases h
  | cons a t ih =>
    intro i h
    unfold findIdxB at h
    by_cases hpa : p a = true
    · rw [if_pos hpa] at h
      injection h with h
      subst h
      exact ⟨a, by simp, hpa, fun j hj => by omega⟩
    · rw [if_neg hpa] at h
      cases hfb : findIdxB p t with
      | none => rw [hfb] at h; cases h
      | some i' =>
        rw [hfb] at h
        simp only [Option.map_some'] at h
        injection h with h
        obtain ⟨x, hx, hpx, hlt⟩ := ih hfb
        refine ⟨x, ?_, hpx, ?_⟩
        · rw [← h]; simpa using hx
        · intro j hj y hy
          cases j with
          | zero =>
            simp only [List.getElem?_cons_zero] at hy
            injection hy with hy
            subst hy
            exact Bool.not_eq_true _ |>.mp hpa
          | succ j' =>
            rw [List.getElem?_cons_succ] at hy
            exact hlt j' (by omega) y hy

/-- C2 (amended): when `update_block` rewrites a line, only the line's
indentation and dash-bullet prefix (`\s*- `) are preserved; everything after
that prefix — including any embedded identity token, task keyword and
priority cookie — is replaced by the new payload. -/
theorem spec_c2_amended (d n w rest u c : List Char)
    (hw : ∀ y ∈ w, isWs y = true)
    (hnl1 : ¬ '\n' ∈ w) (hnl2 : ¬ '\n' ∈ rest)
    (hinc : includesUuid (w ++ '-' :: ' ' :: rest) u = true) :
    updateBlock [⟨d, n, w ++ '-' :: ' ' :: rest⟩] u c
      = (UpdResult.success 0 0, [⟨d, n, w ++ '-' :: ' ' :: c⟩]) := by
  have hnl : ¬ '\n' ∈ (w ++ '-' :: ' ' :: rest) := by
    intro hm
    rcases List.mem_append.mp hm with hm | hm
    · exact hnl1 hm
    · rcases List.mem_cons.mp hm with e | hm
      · cases e
      · rcases List.mem_cons.mp hm with e | hm
        · cases e
        · exact hnl2 hm
  have hsplit : splitOnNl (w ++ '-' :: ' ' :: rest) = [w ++ '-' :: ' ' :: rest] :=
    splitOnNl_single hnl
  have hdm : dashMatch (w ++ '-' :: ' ' :: rest) = some (w ++ ['-', ' ']) :=
    dashMatch_fire hw
  have hupdf : updFile u c ⟨d, n, w ++ '-' :: ' ' :: rest⟩
      = some (0, ⟨d, n, w ++ '-' :: ' ' :: c⟩) := by
    simp only [updFile]
    rw [hsplit]
    rw [show findIdxB (fun l => includesUuid l u && (dashMatch l).isSome)
        [w ++ '-' :: ' ' :: rest] = some 0 from by
      unfold findIdxB
      rw [if_pos (by rw [hinc, hdm]; rfl)]]
    show some (0, (⟨d, n, joinLines
        ([w ++ '-' :: ' ' :: rest].set 0
          ((dashMatch ([w ++ '-' :: ' ' :: rest].getD 0 [])).getD [] ++ c))⟩ : GraphFile))
      = some (0, ⟨d, n, w ++ '-' :: ' ' :: c⟩)
    rw [show ([w ++ '-' :: ' ' :: rest].getD 0 []) = w ++ '-' :: ' ' :: rest from rfl,
      hdm]
    show some (0, (⟨d, n, (w ++ ['-', ' ']) ++ c⟩ : GraphFile))
      = some (0, ⟨d, n, w ++ '-' :: ' ' :: c⟩)
    rw [show (w ++ ['-', ' ']) ++ c = w ++ '-' :: ' ' :: c from by simp]
  unfold updateBlock updAux
  rw [hupdf]
  rfl

theorem updAux_none {u c : List Char} :
    ∀ {files : List GraphFile},
      (∀ f ∈ files, ∀ l ∈ splitOnNl f.content,
        (includesUuid l u && (dashMatch l).isSome) = false) →
      updAux u c files = none := by
  intro files
  induction files with
  | nil => intro _; rfl
  | cons f fs ih =>
    intro h
    unfold updAux
    rw [show updFile u c f = none from by
      simp only [updFile]
      rw [findIdxB_none_of (fun l hl => h f (by simp) l hl)]]
    rw [ih (fun g hg l hl => h g (by simp [hg]) l hl)]
    rfl

/-- C10: `update_block` rewrites a line only when it matches the dash-bullet
pattern: when every line containing the UUID fails the `^(\s*- )` match (for
example a `*` or `+` bullet, which the parser itself accepts — see the
second conjunct), the operation returns not-found and the collection is
returned unchanged. -/
theorem spec_c10_dash_only (files : List GraphFile) (u c : List Char)
    (h : ∀ f ∈ files, ∀ l ∈ splitOnNl f.content,
      (includesUuid l u && (dashMatch l).isSome) = false) :
    updateBlock files u c = (UpdResult.notFound, files) ∧
    ((parseLineO genA 0 "* abcd1234 hello there".toList).map
      (fun b => (b.uuid.take 8, b.content))
      = some ("abcd1234".toList, "hello there".toList)) := by
  constructor
  · unfold updateBlock
    rw [updAux_none h]
  · decide

/-- C1: the reconciler fails closed.  If `delete_block` reports not-found
(no parsed block matches the identity) or search-failed (no strategy selects
a line), the returned collection is byte-identical to the input; likewise
for `update_block`'s not-found. -/
theorem spec_c1_fail_closed (gen : Nat → List Char) (files : List GraphFile)
    (u c : List Char) :
    ((deleteBlock gen files u).1 = DelResult.notFound →
      (deleteBlock gen files u).2 = files) ∧
    ((deleteBlock gen files u).1 = DelResult.searchFailed →
      (deleteBlock gen files u).2 = files) ∧
    ((updateBlock files u c).1 = UpdResult.notFound →
      (updateBlock files u c).2 = files) := by
  refine ⟨?_, ?_, ?_⟩
  · intro h
    simp only [deleteBlock] at h ⊢
    cases hft : findTarget u 0 (allPages gen 0 files).1 with
    | none => simp [hft]
    | some pb =>
      simp only [hft] at h ⊢
      cases hsel : selectLine (List.take 8 pb.2.uuid) pb.2.content
          (splitOnNl (files[pb.1]?.getD ⟨[], [], []⟩).content) with
      | none => simp [hsel]
      | some ki => simp [hsel] at h
  · intro h
    simp only [deleteBlock] at h ⊢
    cases hft : findTarget u 0 (allPages gen 0 files).1 with
    | none => simp [hft] at h
    | some pb =>
      simp only [hft] at h ⊢
      cases hsel : selectLine (List.take 8 pb.2.uuid) pb.2.content
          (splitOnNl (files[pb.1]?.getD ⟨[], [], []⟩).content) with
      | none => simp [hsel]
      | some ki => simp [hsel] at h
  · intro h
    simp only [updateBlock] at h ⊢
    cases ha : updAux u c files with
    | none => simp [ha]
    | some t => simp [ha] at h

theorem selectLine_spec {short bc : List Char} {lines : List (List Char)} {k i : Nat}
    (h : selectLine short bc lines = some (k, i)) :
    findIdxB (stratTest k short bc) lines = some i ∧
    ∀ k', k' < k → findIdxB (stratTest k' short bc) lines = none := by
  unfold selectLine at h
  cases h0 : findIdxB (stratTest 0 short bc) lines with
  | some j =>
    rw [h0] at h
    simp only [Option.some.injEq, Prod.mk.injEq] at h
    obtain ⟨hk, hi⟩ := h
    subst hk; subst hi
    exact ⟨h0, by omega⟩
  | none =>
    rw [h0] at h
    cases h1 : findIdxB (stratTest 1 short bc) lines with
    | some j =>
      rw [h1] at h
      simp only [Option.some.injEq, Prod.mk.injEq] at h
      obtain ⟨hk, hi⟩ := h
      subst hk; subst hi
      refine ⟨h1, ?_⟩
      intro k' hk'
      interval_cases k'
      exact h0
    | none =>
      rw [h1] at h
      cases h2 : findIdxB (stratTest 2 short bc) lines with
      | some j =>
        rw [h2] at h
        simp only [Option.some.injEq, Prod.mk.injEq] at h
        obtain ⟨hk, hi⟩ := h
        subst hk; subst hi
        refine ⟨h2, ?_⟩
        intro k' hk'
        interval_cases k'
        · exact h0
        · exact h1
      | none =>
        rw [h2] at h
        cases h3 : findIdxB (stratTest 3 short bc) lines with
        | some j =>
          rw [h3] at h
          simp only [Option.some.injEq, Prod.mk.injEq] at h
          obtain ⟨hk, hi⟩ := h
          subst hk; subst hi
          refine ⟨h3, ?_⟩
          intro k' hk'
          interval_cases k'
          · exact h0
          · exact h1
          · exact h2
        | none =>
          rw [h3] at h
          cases h4 : findIdxB (stratTest 4 short bc) lines with
          | some j =>
            rw [h4] at h
            simp only [Option.some.injEq, Prod.mk.injEq] at h
            obtain ⟨hk, hi⟩ := h
            subst hk; subst hi
            refine ⟨h4, ?_⟩
            intro k' hk'
            interval_cases k'
            · exact h0
            · exact h1
            · exact h2
            · exact h3
          | none => rw [h4] at h; cases h

theorem findTarget_bound {u : List Char} :
    ∀ (ps : List PageM) (i pi : Nat) (b : BlockM),
      findTarget u i ps = some (pi, b) → i ≤ pi ∧ pi < i + ps.length := by
  intro ps
  induction ps with
  | nil => intro i pi b h; cases h
  | cons p t ih =>
    intro i pi b h
    unfold findTarget at h
    cases hf : p.blocks.find? (fun bl => uuidMatches bl.uuid u) with
    | some bl =>
      rw [hf] at h
      simp only [Option.some.injEq, Prod.mk.injEq] at h
      obtain ⟨hp, -⟩ := h
      subst hp
      simp
    | none =>
      rw [hf] at h
      have := ih (i + 1) pi b h
      constructor
      · omega
      · simp only [List.length_cons]; omega

theorem allPages_length (gen : Nat → List Char) :
    ∀ (ctr : Nat) (files : List GraphFile),
      ((allPages gen ctr files).1).length = files.length := by
  intro ctr files
  induction files generalizing ctr with
  | nil => rfl
  | cons f fs ih =>
    show ((readPage gen ctr f).1 :: (allPages gen (readPage gen ctr f).2 fs).1).length
      = fs.length + 1
    simp [ih]

/-- C3: whenever `delete_block` succeeds, the rewritten file is exactly the
old file with the single selected line spliced out (all other lines keep
their content and relative order); the selected line is the FIRST line, in
file order, matching the selecting strategy, and no line at all matches any
higher-precedence strategy — so the choice among duplicates is
deterministic. -/
theorem spec_c3_delete_first (gen : Nat → List Char) (files : List GraphFile)
    (u : List Char) (pi li k : Nat) (short bc ol : List Char) (v : Bool)
    (h : (deleteBlock gen files u).1 = DelResult.success pi li k short bc ol v) :
    ∃ f, files[pi]? = some f ∧
      (deleteBlock gen files u).2
        = files.set pi ⟨f.dir, f.name, joinLines ((splitOnNl f.content).eraseIdx li)⟩ ∧
      (∃ l, (splitOnNl f.content)[li]? = some l ∧ stratTest k short bc l = true) ∧
      (∀ j, j < li → ∀ l', (splitOnNl f.content)[j]? = some l' →
        stratTest k short bc l' = false) ∧
      (∀ k', k' < k → ∀ l' ∈ splitOnNl f.content, stratTest k' short bc l' = false) := by
  simp only [deleteBlock] at h ⊢
  cases hft : findTarget u 0 (allPages gen 0 files).1 with
  | none => rw [hft] at h; cases h
  | some pb =>
    simp only [hft] at h ⊢
    have hb := findTarget_bound _ 0 pb.1 pb.2 hft
    have hlt : pb.1 < files.length := by
      have := allPages_length gen 0 files
      omega
    have hfe : files[pb.1]? = some files[pb.1] := List.getElem?_eq_getElem hlt
    have hgd : files.getD pb.1 (⟨[], [], []⟩ : GraphFile) = files[pb.1] :=
      List.getD_eq_getElem files _ hlt
    rw [hgd] at h ⊢
    cases hsel : selectLine (List.take 8 pb.2.uuid) pb.2.content
        (splitOnNl files[pb.1].content) with
    | none => rw [hsel] at h; cases h
    | some ki =>
      simp only [hsel] at h ⊢
      simp only [DelResult.success.injEq] at h
      obtain ⟨hpi, hli, hki, hsh, hbc, hol, hv⟩ := h
      subst hpi; subst hli; subst hki; subst hsh; subst hbc
      obtain ⟨hfind, hnone⟩ := selectLine_spec hsel
      obtain ⟨l, hl, hpl, hlt'⟩ := findIdxB_some_spec hfind
      exact ⟨files[pb.1], hfe, rfl, ⟨l, hl, hpl⟩, hlt',
        fun k' hk' l' hl' =>
          findIdxB_none_spec (hnone k' hk') l' hl'⟩

/-- C2 (counterexample): updating block `abcd1234` of the line
`- abcd1234 TODO [#A] Old content` with payload `New stuff` reports success
but rewrites the line to `- New stuff`: the embedded identity token, task
keyword and priority cookie are NOT preserved. -/
theorem spec_c2_counterexample :
    updateBlock
        [⟨"g/pages".toList, "test".toList,
          "- abcd1234 TODO [#A] Old content".toList⟩]
        "abcd1234".toList "New stuff".toList
      = (UpdResult.success 0 0,
         [⟨"g/pages".toList, "test".toList, "- New stuff".toList⟩]) ∧
    containsB "- New stuff".toList "abcd1234".toList = false := by decide

/-- Closed witness for the amended C2: an indented dash line containing the
identity is rewritten to indentation + `- ` + payload. -/
theorem spec_c2_amended_witness :
    updateBlock [⟨"g/pages".toList, "test".toList,
        "  ".toList ++ '-' :: ' ' :: "abcd1234 Old".toList⟩]
      "abcd1234".toList "New".toList
      = (UpdResult.success 0 0,
         [⟨"g/pages".toList, "test".toList,
           "  ".toList ++ '-' :: ' ' :: "New".toList⟩]) :=
  spec_c2_amended "g/pages".toList "test".toList "  ".toList
    "abcd1234 Old".toList "abcd1234".toList "New".toList
    (by decide) (by decide) (by decide) (by decide)

/-- Closed witness for C10: a `*`-bulleted line containing the UUID leads to
a not-found result with the collection unchanged, while the parser accepts
the same line as a block. -/
theorem spec_c10_dash_only_witness :
    updateBlock [⟨"g/pages".toList, "t".toList, "* abcd1234 hello there".toList⟩]
        "abcd1234".toList "x".toList
      = (UpdResult.notFound,
         [⟨"g/pages".toList, "t".toList, "* abcd1234 hello there".toList⟩]) ∧
    ((parseLineO genA 0 "* abcd1234 hello there".toList).map
      (fun b => (b.uuid.take 8, b.content))
      = some ("abcd1234".toList, "hello there".toList)) :=
  spec_c10_dash_only
    [⟨"g/pages".toList, "t".toList, "* abcd1234 hello there".toList⟩]
    "abcd1234".toList "x".toList (by decide)

/-- Closed witness for C1: deleting or updating a non-existent identity
leaves the single-file collection unchanged. -/
theorem spec_c1_fail_closed_witness :
    (deleteBlock genB [⟨"g/pages".toList, "t".toList, "- hello".toList⟩]
        "zzzz".toList).2
      = [⟨"g/pages".toList, "t".toList, "- hello".toList⟩] ∧
    (updateBlock [⟨"g/pages".toList, "t".toList, "- hello".toList⟩]
        "zzzz".toList "x".toList).2
      = [⟨"g/pages".toList, "t".toList, "- hello".toList⟩] :=
  ⟨(spec_c1_fail_closed genB
      [⟨"g/pages".toList, "t".toList, "- hello".toList⟩]
      "zzzz".toList "x".toList).1 (by decide),
   (spec_c1_fail_closed genB
      [⟨"g/pages".toList, "t".toList, "- hello".toList⟩]
      "zzzz".toList "x".toList).2.2 (by decide)⟩

/-- Closed witness for C3 at the spec's duplicate-content scenario: two
blocks share content `Review PR`; deleting the first block's identity
removes exactly the first matching line (strategy 2, content-in-bullet),
leaving the sibling untouched. -/
theorem spec_c3_delete_first_witness :
    ∃ f, filesReviewPR[0]? = some f ∧
      (deleteBlock genB filesReviewPR (genB 0)).2
        = filesReviewPR.set 0
            ⟨f.dir, f.name, joinLines ((splitOnNl f.content).eraseIdx 0)⟩ ∧
      (∃ l, (splitOnNl f.content)[0]? = some l ∧
        stratTest 2 ((genB 0).take 8) "Review PR".toList l = true) ∧
      (∀ j, j < 0 → ∀ l', (splitOnNl f.content)[j]? = some l' →
        stratTest 2 ((genB 0).take 8) "Review PR".toList l' = false) ∧
      (∀ k', k' < 2 → ∀ l' ∈ splitOnNl f.content,
        stratTest k' ((genB 0).take 8) "Review PR".toList l' = false) :=
  spec_c3_delete_first genB filesReviewPR (genB 0) 0 0 2 ((genB 0).take 8)
    "Review PR".toList "- Review PR".toList false (by decide)
